import Mathlib

/-!
Shallow embedding of the skills-sync reconciliation engine
(crates/skillssync-core), together with proofs about the claims of the
specification.  Rust strings and byte sequences are modelled as lists of
characters; the filesystem is modelled as a partial map from absolute
paths to nodes.  Definitions are translated from the Rust source
(engine.rs, mcp_registry.rs, state_store.rs, models.rs, error.rs);
comments point to the functions they embed.
-/

namespace SkillsSync

/-- Rust strings (and byte buffers) modelled as lists of characters. -/
abbrev Str := List Char

/-- ASCII subset of the whitespace class used by str::trim.  All inputs
relevant to the proofs below are ASCII; the Unicode whitespace code points
beyond ASCII are not modelled. -/
def isAsciiWhitespace (c : Char) : Bool :=
  (c.toNat == 32) || (c.toNat == 9) || (c.toNat == 10) || (c.toNat == 13)

/-- Rust str::trim. -/
def trimWs (s : Str) : Str :=
  ((s.dropWhile isAsciiWhitespace).reverse.dropWhile isAsciiWhitespace).reverse

/-- Drop every leading occurrence of a character (the left half of
str::trim_matches). -/
def dropEdge (c : Char) (s : Str) : Str :=
  s.dropWhile (fun a => a == c)

/-- Drop every trailing occurrence of a character (the right half of
str::trim_matches). -/
def dropEnd (c : Char) (s : Str) : Str :=
  ((s.reverse).dropWhile (fun a => a == c)).reverse

/-- Rust str::trim_matches with a single-character pattern. -/
def trimMatches (c : Char) (s : Str) : Str :=
  dropEnd c (dropEdge c s)

/-- Rust char::is_ascii_lowercase or char::is_ascii_digit, the class of
characters kept verbatim by normalized_skill_key. -/
def isAsciiLowerOrDigit (c : Char) : Bool :=
  (97 ≤ c.toNat && c.toNat ≤ 122) || (48 ≤ c.toNat && c.toNat ≤ 57)

/-- Rust char::is_ascii_uppercase. -/
def isAsciiUpper (c : Char) : Bool :=
  65 ≤ c.toNat && c.toNat ≤ 90

/-- Rust char::to_ascii_lowercase. -/
def toAsciiLower (c : Char) : Char :=
  if isAsciiUpper c then Char.ofNat (c.toNat + 32) else c

/-- Character loop of normalized_skill_key (engine.rs): keep ASCII lower
letters and digits, replace every other maximal run with one dash.  The
boolean argument is the previous_dash flag. -/
def normalizedKeyGo : Bool → Str → Str
  | _, [] => []
  | previousDash, c :: rest =>
    if isAsciiLowerOrDigit c then c :: normalizedKeyGo false rest
    else if previousDash then normalizedKeyGo true rest
    else '-' :: normalizedKeyGo true rest

/-- Embedding of normalized_skill_key (engine.rs): trim, lower-case,
collapse non-alphanumeric runs to single dashes, trim dashes. -/
def normalized_skill_key (title : Str) : Str :=
  let trimmed := (trimWs title).map toAsciiLower
  if trimmed = [] then []
  else trimMatches '-' (normalizedKeyGo false trimmed)

/-- Characters the key loop can emit. -/
def isKeyChar (c : Char) : Bool :=
  isAsciiLowerOrDigit c || c == '-'

/-- Head-of-list dash test, used to state the no-consecutive-dash
invariant of the key loop output. -/
def startsDash : Str → Bool
  | [] => false
  | a :: _ => a == '-'

/-- No two consecutive dashes occur in the list. -/
def noConsecDash : Str → Bool
  | [] => true
  | a :: rest => (!(a == '-' && startsDash rest)) && noConsecDash rest

section StringLemmas

lemma dropWhile_eq_self_of_forall {p : Char → Bool} {s : Str}
    (h : ∀ a ∈ s, p a = false) : s.dropWhile p = s := by
  cases s with
  | nil => rfl
  | cons a t =>
    rw [List.dropWhile_cons, h a (List.mem_cons_self a t)]
    simp

lemma trimWs_eq_self {s : Str} (h : ∀ a ∈ s, isAsciiWhitespace a = false) :
    trimWs s = s := by
  unfold trimWs
  rw [dropWhile_eq_self_of_forall h,
    dropWhile_eq_self_of_forall (fun a ha => h a (List.mem_reverse.mp ha)),
    List.reverse_reverse]

lemma keyChar_ranges {c : Char} (h : isKeyChar c = true) :
    (97 ≤ c.toNat ∧ c.toNat ≤ 122) ∨ (48 ≤ c.toNat ∧ c.toNat ≤ 57) ∨
      c.toNat = 45 := by
  unfold isKeyChar isAsciiLowerOrDigit at h
  rcases Bool.or_eq_true_iff.mp h with h1 | h2
  · rcases Bool.or_eq_true_iff.mp h1 with hlo | hdig
    · simp only [Bool.and_eq_true, decide_eq_true_eq] at hlo
      exact Or.inl hlo
    · simp only [Bool.and_eq_true, decide_eq_true_eq] at hdig
      exact Or.inr (Or.inl hdig)
  · have hc : c = '-' := beq_iff_eq.mp h2
    subst hc
    exact Or.inr (Or.inr rfl)

lemma toAsciiLower_fix {c : Char} (h : isKeyChar c = true) :
    toAsciiLower c = c := by
  unfold toAsciiLower
  have hup : isAsciiUpper c = false := by
    rw [Bool.eq_false_iff]
    intro hcontra
    simp only [isAsciiUpper, Bool.and_eq_true, decide_eq_true_eq] at hcontra
    rcases keyChar_ranges h with h1 | h2 | h3 <;> omega
  rw [hup]
  simp

lemma keyChar_not_ws {c : Char} (h : isKeyChar c = true) :
    isAsciiWhitespace c = false := by
  rw [Bool.eq_false_iff]
  intro hcontra
  simp only [isAsciiWhitespace, Bool.or_eq_true, beq_iff_eq] at hcontra
  rcases keyChar_ranges h with h1 | h2 | h3 <;> omega

lemma dash_not_lowerOrDigit : isAsciiLowerOrDigit '-' = false := by decide

lemma keyGo_mem_valid : ∀ (pd : Bool) (l : Str) (c : Char),
    c ∈ normalizedKeyGo pd l → isKeyChar c = true := by
  intro pd l
  induction l generalizing pd with
  | nil => intro c hc; simp [normalizedKeyGo] at hc
  | cons a rest ih =>
    intro c hc
    unfold normalizedKeyGo at hc
    by_cases ha : isAsciiLowerOrDigit a = true
    · rw [if_pos ha] at hc
      rcases List.mem_cons.mp hc with h | h
      · subst h; unfold isKeyChar; rw [ha]; rfl
      · exact ih false c h
    · rw [if_neg (by simp [ha])] at hc
      cases pd with
      | true => simp only [if_pos] at hc; exact ih true c hc
      | false =>
        simp only [Bool.false_eq_true, if_false] at hc
        rcases List.mem_cons.mp hc with h | h
        · subst h; decide
        · exact ih true c h

lemma keyChar_ne_dash {a : Char} (ha : isAsciiLowerOrDigit a = true) :
    (a == '-') = false := by
  rw [Bool.eq_false_iff]
  intro hcontra
  have : a = '-' := beq_iff_eq.mp hcontra
  subst this
  rw [dash_not_lowerOrDigit] at ha
  cases ha

lemma keyGo_true_not_dash : ∀ (l : Str),
    startsDash (normalizedKeyGo true l) = false := by
  intro l
  induction l with
  | nil => rfl
  | cons a rest ih =>
    unfold normalizedKeyGo
    by_cases ha : isAsciiLowerOrDigit a = true
    · rw [if_pos ha]
      exact keyChar_ne_dash ha
    · rw [if_neg (by simp [ha])]
      simpa using ih

lemma noConsecDash_cons {a : Char} {l : Str} :
    noConsecDash (a :: l) =
      ((!(a == '-' && startsDash l)) && noConsecDash l) := rfl

lemma andSplit {a b : Bool} (h : (a && b) = true) : a = true ∧ b = true := by
  simp only [Bool.and_eq_true] at h
  exact h

lemma keyGo_noConsec : ∀ (pd : Bool) (l : Str),
    noConsecDash (normalizedKeyGo pd l) = true := by
  intro pd l
  induction l generalizing pd with
  | nil => cases pd <;> rfl
  | cons a rest ih =>
    unfold normalizedKeyGo
    by_cases ha : isAsciiLowerOrDigit a = true
    · rw [if_pos ha, noConsecDash_cons]
      rw [keyChar_ne_dash ha]
      simpa using ih false
    · rw [if_neg (by simp [ha])]
      cases pd with
      | true => exact ih true
      | false =>
        simp only [Bool.false_eq_true, if_false]
        rw [noConsecDash_cons, keyGo_true_not_dash]
        simpa using ih true

lemma keyGo_fixpoint : ∀ (l : Str) (pd : Bool),
    (∀ c ∈ l, isKeyChar c = true) → noConsecDash l = true →
    (pd = true → startsDash l = false) →
    normalizedKeyGo pd l = l := by
  intro l
  induction l with
  | nil => intro pd _ _ _; cases pd <;> rfl
  | cons a rest ih =>
    intro pd hv hnc hpd
    unfold normalizedKeyGo
    by_cases ha : isAsciiLowerOrDigit a = true
    · rw [if_pos ha]
      congr 1
      refine ih false (fun c hc => hv c (List.mem_cons_of_mem a hc)) ?_ ?_
      · rw [noConsecDash_cons] at hnc
        exact (andSplit hnc).2
      · intro h; cases h
    · rw [if_neg (by simp [ha])]
      have hadash : a = '-' := by
        have := hv a (List.mem_cons_self a rest)
        unfold isKeyChar at this
        rcases Bool.or_eq_true_iff.mp this with h | h
        · rw [h] at ha; cases ha rfl
        · exact beq_iff_eq.mp h
      cases pd with
      | true =>
        exfalso
        have := hpd rfl
        subst hadash
        simp [startsDash] at this
      | false =>
        simp only [Bool.false_eq_true, if_false]
        subst hadash
        congr 1
        refine ih true (fun c hc => hv c (List.mem_cons_of_mem _ hc)) ?_ ?_
        · rw [noConsecDash_cons] at hnc
          exact (andSplit hnc).2
        · intro _
          rw [noConsecDash_cons] at hnc
          have := (andSplit hnc).1
          simpa using this

lemma dropEdge_idem (c : Char) (s : Str) :
    dropEdge c (dropEdge c s) = dropEdge c s := by
  unfold dropEdge
  cases h : s.dropWhile (fun a => a == c) with
  | nil => rfl
  | cons a t =>
    have hhead := List.head?_dropWhile_not (fun a => a == c) s
    rw [h] at hhead
    simp only [List.head?_cons] at hhead
    rw [List.dropWhile_cons, hhead]
    simp

lemma dropEnd_idem (c : Char) (s : Str) :
    dropEnd c (dropEnd c s) = dropEnd c s := by
  unfold dropEnd
  rw [List.reverse_reverse]
  have := dropEdge_idem c s.reverse
  unfold dropEdge at this
  rw [this]

lemma dropEnd_append (c : Char) (s : Str) :
    ∃ t, s = dropEnd c s ++ t := by
  refine ⟨((s.reverse).takeWhile (fun a => a == c)).reverse, ?_⟩
  unfold dropEnd
  rw [← List.reverse_append, List.takeWhile_append_dropWhile, List.reverse_reverse]

lemma dropEdge_of_decomp {c : Char} {u v t : Str}
    (hu : dropEdge c u = u) (hdecomp : u = v ++ t) : dropEdge c v = v := by
  cases v with
  | nil => rfl
  | cons a v' =>
    subst hdecomp
    unfold dropEdge at hu ⊢
    by_cases hac : (a == c) = true
    · exfalso
      rw [List.cons_append, List.dropWhile_cons, if_pos hac] at hu
      have hlen := (List.dropWhile_sublist (l := v' ++ t) (fun x => x == c)).length_le
      rw [hu] at hlen
      simp at hlen
    · rw [List.dropWhile_cons, if_neg (by simp_all)]

lemma trimMatches_idem (c : Char) (s : Str) :
    trimMatches c (trimMatches c s) = trimMatches c s := by
  unfold trimMatches
  set u := dropEdge c s with hu
  obtain ⟨t, ht⟩ := dropEnd_append c u
  have h1 : dropEdge c (dropEnd c u) = dropEnd c u := by
    refine dropEdge_of_decomp ?_ ht
    rw [hu]; exact dropEdge_idem c s
  rw [h1, dropEnd_idem]

lemma noConsec_suffix : ∀ (p q : Str),
    noConsecDash (p ++ q) = true → noConsecDash q = true := by
  intro p
  induction p with
  | nil => intro q h; exact h
  | cons a p' ih =>
    intro q h
    rw [List.cons_append, noConsecDash_cons] at h
    exact ih q (andSplit h).2

lemma startsDash_append {p q : Str} (hp : p ≠ []) :
    startsDash (p ++ q) = startsDash p := by
  cases p with
  | nil => cases hp rfl
  | cons a p' => rfl

lemma noConsec_prefix : ∀ (p q : Str),
    noConsecDash (p ++ q) = true → noConsecDash p = true := by
  intro p
  induction p with
  | nil => intro q _; rfl
  | cons a p' ih =>
    intro q h
    rw [List.cons_append, noConsecDash_cons] at h
    obtain ⟨h1, h2⟩ := andSplit h
    rw [noConsecDash_cons]
    simp only [Bool.and_eq_true]
    refine ⟨?_, ih q h2⟩
    by_cases hp : p' = []
    · subst hp
      simp [startsDash]
    · rw [startsDash_append hp] at h1
      exact h1

lemma dropWhile_suffix_decomp (p : Char → Bool) (s : Str) :
    ∃ pre, s = pre ++ s.dropWhile p :=
  ⟨s.takeWhile p, (List.takeWhile_append_dropWhile p s).symm⟩

lemma map_eq_self_of_forall {f : Char → Char} {s : Str}
    (h : ∀ a ∈ s, f a = a) : s.map f = s := by
  induction s with
  | nil => rfl
  | cons a t ih =>
    rw [List.map_cons, h a (List.mem_cons_self a t),
      ih (fun b hb => h b (List.mem_cons_of_mem a hb))]

lemma mem_dropEdge {c : Char} {s : Str} {a : Char}
    (h : a ∈ dropEdge c s) : a ∈ s :=
  (List.dropWhile_sublist _).subset h

lemma mem_dropEnd {c : Char} {s : Str} {a : Char}
    (h : a ∈ dropEnd c s) : a ∈ s := by
  unfold dropEnd at h
  rw [List.mem_reverse] at h
  exact List.mem_reverse.mp ((List.dropWhile_sublist _).subset h)

lemma mem_trimMatches {c : Char} {s : Str} {a : Char}
    (h : a ∈ trimMatches c s) : a ∈ s :=
  mem_dropEdge (mem_dropEnd h)

lemma noConsec_trimMatches {c : Char} {s : Str}
    (h : noConsecDash s = true) : noConsecDash (trimMatches c s) = true := by
  unfold trimMatches
  obtain ⟨pre, hpre⟩ := dropWhile_suffix_decomp (fun a => a == c) s
  have hedge : noConsecDash (dropEdge c s) = true := by
    refine noConsec_suffix pre _ ?_
    unfold dropEdge
    rw [← hpre]
    exact h
  obtain ⟨t, ht⟩ := dropEnd_append c (dropEdge c s)
  refine noConsec_prefix _ t ?_
  rw [← ht]
  exact hedge

end StringLemmas

/-- Claim C9: the title-to-key normalization function of the rename
operation is idempotent: applying normalized_skill_key twice yields the
same result as applying it once. -/
theorem normalized_skill_key_idempotent (title : Str) :
    normalized_skill_key (normalized_skill_key title) =
      normalized_skill_key title := by
  set out := normalized_skill_key title with hout
  have hvalid : ∀ c ∈ out, isKeyChar c = true := by
    intro c hc
    rw [hout] at hc
    unfold normalized_skill_key at hc
    by_cases he : (trimWs title).map toAsciiLower = []
    · simp [he] at hc
    · rw [if_neg (by simpa using he)] at hc
      exact keyGo_mem_valid false _ c (mem_trimMatches hc)
  by_cases hempty : out = []
  · rw [hempty]
    rfl
  · unfold normalized_skill_key
    have htrim : trimWs out = out :=
      trimWs_eq_self (fun a ha => keyChar_not_ws (hvalid a ha))
    have hmap : out.map toAsciiLower = out :=
      map_eq_self_of_forall (fun a ha => toAsciiLower_fix (hvalid a ha))
    rw [htrim, hmap, if_neg hempty]
    have hnc : noConsecDash out = true := by
      rw [hout]
      unfold normalized_skill_key
      by_cases he : (trimWs title).map toAsciiLower = []
      · simp [he, noConsecDash]
      · rw [if_neg (by simpa using he)]
        exact noConsec_trimMatches (keyGo_noConsec false _)
    rw [keyGo_fixpoint out false hvalid hnc (by intro h; cases h)]
    have : ∃ base, out = trimMatches '-' base := by
      rw [hout]
      unfold normalized_skill_key
      by_cases he : (trimWs title).map toAsciiLower = []
      · exact ⟨[], by simp [he, trimMatches, dropEdge, dropEnd]⟩
      · rw [if_neg (by simpa using he)]
        exact ⟨normalizedKeyGo false ((trimWs title).map toAsciiLower), rfl⟩
    obtain ⟨base, hbase⟩ := this
    rw [hbase, trimMatches_idem]

/-- Lexicographic byte comparison of two strings, the order used by the
Rust standard library on str, String, and byte slices.  A strict prefix
compares as smaller. -/
def strCompare : Str → Str → Ordering
  | [], [] => .eq
  | [], _ :: _ => .lt
  | _ :: _, [] => .gt
  | a :: as, b :: bs => (compare a.toNat b.toNat).then (strCompare as bs)

section CompareLemmas

lemma natCompare_swap (a b : Nat) : (compare a b).swap = compare b a := by
  rcases Nat.lt_trichotomy a b with h | h | h
  · rw [Nat.compare_eq_lt.mpr h, Nat.compare_eq_gt.mpr h]
    rfl
  · rw [Nat.compare_eq_eq.mpr h, Nat.compare_eq_eq.mpr h.symm]
    rfl
  · rw [Nat.compare_eq_gt.mpr h, Nat.compare_eq_lt.mpr h]
    rfl

lemma strCompare_swap : ∀ (a b : Str), (strCompare a b).swap = strCompare b a := by
  intro a
  induction a with
  | nil => intro b; cases b <;> rfl
  | cons x xs ih =>
    intro b
    cases b with
    | nil => rfl
    | cons y ys =>
      show ((compare x.toNat y.toNat).then (strCompare xs ys)).swap = _
      rw [Ordering.swap_then, natCompare_swap, ih ys]
      rfl

lemma strCompare_nil_ne_gt (c : Str) : strCompare [] c ≠ .gt := by
  cases c <;> simp [strCompare]

lemma strCompare_le_trans : ∀ {a b c : Str},
    strCompare a b ≠ .gt → strCompare b c ≠ .gt → strCompare a c ≠ .gt := by
  intro a
  induction a with
  | nil => intro b c _ _; exact strCompare_nil_ne_gt c
  | cons x xs ih =>
    intro b c h1 h2
    cases b with
    | nil => cases h1 (by cases c <;> rfl)
    | cons y ys =>
      cases c with
      | nil => cases h2 rfl
      | cons z zs =>
        show ((compare x.toNat z.toNat).then (strCompare xs zs)) ≠ .gt
        have h1e : ¬ (compare x.toNat y.toNat = .gt ∨
            (compare x.toNat y.toNat = .eq ∧ strCompare xs ys = .gt)) := by
          intro hcontra
          exact h1 (Ordering.then_eq_gt.mpr hcontra)
        have h2e : ¬ (compare y.toNat z.toNat = .gt ∨
            (compare y.toNat z.toNat = .eq ∧ strCompare ys zs = .gt)) := by
          intro hcontra
          exact h2 (Ordering.then_eq_gt.mpr hcontra)
        push_neg at h1e h2e
        intro hcontra
        rcases Ordering.then_eq_gt.mp hcontra with hgt | ⟨heq, htail⟩
        · have hyx : ¬ y.toNat < x.toNat := fun h => h1e.1 (Nat.compare_eq_gt.mpr h)
          have hzy : ¬ z.toNat < y.toNat := fun h => h2e.1 (Nat.compare_eq_gt.mpr h)
          have := Nat.compare_eq_gt.mp hgt
          omega
        · have hxz := Nat.compare_eq_eq.mp heq
          have hyx : ¬ y.toNat < x.toNat := fun h => h1e.1 (Nat.compare_eq_gt.mpr h)
          have hzy : ¬ z.toNat < y.toNat := fun h => h2e.1 (Nat.compare_eq_gt.mpr h)
          have hxy : x.toNat = y.toNat := by omega
          have hyz : y.toNat = z.toNat := by omega
          have t1 : strCompare xs ys ≠ .gt := h1e.2 (Nat.compare_eq_eq.mpr hxy)
          have t2 : strCompare ys zs ≠ .gt := h2e.2 (Nat.compare_eq_eq.mpr hyz)
          exact ih t1 t2 htail

lemma strCompare_total (a b : Str) :
    strCompare a b ≠ .gt ∨ strCompare b a ≠ .gt := by
  rcases h : strCompare a b with _ | _ | _
  · exact Or.inl (by simp [h])
  · exact Or.inl (by simp [h])
  · refine Or.inr ?_
    have := strCompare_swap a b
    rw [h] at this
    rw [← this]
    simp [Ordering.swap]

lemma isLE_iff_ne_gt (o : Ordering) : o.isLE = true ↔ o ≠ .gt := by
  cases o <;> simp [Ordering.isLE]

end CompareLemmas

/-- Content classification of one walked directory entry, as seen by
hash_directory (engine.rs): a regular file carrying its bytes, a symlink
whose resolved destination exists and is a regular file (carrying the
resolved bytes), or a symlink that cannot be resolved to a regular file
(read_link error, missing destination, or non-file destination). -/
inductive DirEntryContent
  | regular (bytes : Str)
  | symlinkResolved (bytes : Str)
  | symlinkBroken
deriving DecidableEq

/-- One walked entry of hash_directory: its path relative to the hashed
directory, plus its content.  The recursive walk of the Rust code yields
full paths sharing the directory prefix, so sorting the full paths and
sorting the relative paths agree. -/
structure DirEntry where
  relPath : Str
  content : DirEntryContent
deriving DecidableEq

/-- Fixed marker hashed for a symlink that does not resolve to an
existing regular file (engine.rs hash_directory). -/
def brokenSymlinkMarker : Str := "<broken-symlink>".toList

/-- Fixed marker hashed for a directory with no regular files and no
symlinks beneath it (engine.rs hash_directory). -/
def emptyMarker : Str := "<empty>".toList

/-- Bytes contributed by one entry to the digest stream. -/
def entryBytes : DirEntryContent → Str
  | .regular bytes => bytes
  | .symlinkResolved bytes => bytes
  | .symlinkBroken => brokenSymlinkMarker

/-- Sorting predicate used for the collected file list (Vec sort on
paths). -/
def dirEntryLe (a b : DirEntry) : Bool :=
  (strCompare a.relPath b.relPath).isLE

/-- Embedding of hash_directory (engine.rs): the exact byte stream fed to
the SHA-256 digest.  SHA-256 itself is not modelled; both claims about the
hash concern this preimage stream. -/
def hash_directory_input (entries : List DirEntry) : Str :=
  let files := entries.mergeSort dirEntryLe
  if files = [] then emptyMarker
  else
    files.foldl
      (fun acc e =>
        acc ++ (e.relPath ++ [Char.ofNat 0] ++ entryBytes e.content ++ [Char.ofNat 0]))
      []

lemma dirEntryLe_trans : ∀ (a b c : DirEntry),
    dirEntryLe a b = true → dirEntryLe b c = true → dirEntryLe a c = true := by
  intro a b c h1 h2
  rw [dirEntryLe, isLE_iff_ne_gt] at h1 h2 ⊢
  exact strCompare_le_trans h1 h2

lemma dirEntryLe_total : ∀ (a b : DirEntry),
    (dirEntryLe a b || dirEntryLe b a) = true := by
  intro a b
  rcases strCompare_total a.relPath b.relPath with h | h
  · have : dirEntryLe a b = true := by rw [dirEntryLe, isLE_iff_ne_gt]; exact h
    rw [this]
    rfl
  · have : dirEntryLe b a = true := by rw [dirEntryLe, isLE_iff_ne_gt]; exact h
    rw [this, Bool.or_true]

lemma foldl_append_eq_flatMap {α : Type} (f : α → List Char) :
    ∀ (l : List α) (acc : List Char),
      l.foldl (fun a x => a ++ f x) acc = acc ++ l.flatMap f := by
  intro l
  induction l with
  | nil => intro acc; simp
  | cons x xs ih =>
    intro acc
    rw [List.foldl_cons, ih, List.flatMap_cons, List.append_assoc]

/-- Claim C7: the directory hash digests, in sorted relative-path order,
each entry followed by a null byte and its content bytes followed by a
null byte; the content of an unresolvable symlink is the broken-symlink
marker, and a directory without regular files or symlinks digests the
empty marker. -/
theorem hash_directory_digest_stream (entries : List DirEntry) :
    (entries = [] → hash_directory_input entries = emptyMarker)
    ∧ (entries ≠ [] → ∃ files : List DirEntry,
        files.Perm entries
        ∧ List.Pairwise (fun a b => strCompare a.relPath b.relPath ≠ .gt) files
        ∧ hash_directory_input entries =
            files.flatMap (fun e =>
              e.relPath ++ [Char.ofNat 0] ++ entryBytes e.content ++ [Char.ofNat 0]))
    ∧ entryBytes .symlinkBroken = brokenSymlinkMarker := by
  refine ⟨?_, ?_, rfl⟩
  · intro h
    subst h
    unfold hash_directory_input
    simp
  · intro hne
    refine ⟨entries.mergeSort dirEntryLe, List.mergeSort_perm entries dirEntryLe, ?_, ?_⟩
    · have hsorted := @List.sorted_mergeSort DirEntry dirEntryLe
        dirEntryLe_trans dirEntryLe_total entries
      refine hsorted.imp ?_
      intro a b hab
      rw [dirEntryLe, isLE_iff_ne_gt] at hab
      exact hab
    · have hne2 : entries.mergeSort dirEntryLe ≠ [] := by
        intro hnil
        have := (List.mergeSort_perm entries dirEntryLe).length_eq
        rw [hnil] at this
        cases entries with
        | nil => exact hne rfl
        | cons a t => simp at this
      unfold hash_directory_input
      rw [if_neg hne2]
      rw [foldl_append_eq_flatMap]
      simp only [List.nil_append]

/-- Witness for claim C7 at a concrete directory listing: one regular
manifest file plus one broken symlink. -/
theorem hash_directory_digest_stream_witness :
    (([⟨"SKILL.md".toList, .regular "# A".toList⟩,
       ⟨"link".toList, .symlinkBroken⟩] : List DirEntry) ≠ [])
    ∧ ∃ files : List DirEntry,
        files.Perm [⟨"SKILL.md".toList, .regular "# A".toList⟩,
          ⟨"link".toList, .symlinkBroken⟩]
        ∧ List.Pairwise (fun a b => strCompare a.relPath b.relPath ≠ .gt) files
        ∧ hash_directory_input
            [⟨"SKILL.md".toList, .regular "# A".toList⟩,
             ⟨"link".toList, .symlinkBroken⟩] =
            files.flatMap (fun e =>
              e.relPath ++ [Char.ofNat 0] ++ entryBytes e.content ++ [Char.ofNat 0]) := by
  have hne : (([⟨"SKILL.md".toList, .regular "# A".toList⟩,
      ⟨"link".toList, .symlinkBroken⟩] : List DirEntry) ≠ []) := by
    intro h
    cases h
  exact ⟨hne, (hash_directory_digest_stream _).2.1 hne⟩

/-- Conflict kind (models.rs SyncConflictKind). -/
inductive ConflictKind
  | skill
  | subagent
deriving DecidableEq

/-- Conflict record emitted by the resolver (models.rs SyncConflict). -/
structure SyncConflict where
  kind : ConflictKind
  scope : Str
  workspace : Option Str
  skill_key : Str
deriving DecidableEq

/-- Discovered skill candidate (engine.rs SkillPackage).  Paths are
modelled as strings; standardized_path (fs canonicalize) is modelled as
the identity, so every path in scope is already canonical. -/
structure SkillPackage where
  source_root : Str
  skill_key : Str
  name : Str
  canonical_path : Str
  package_hash : Str
deriving DecidableEq

/-- Embedding of SyncEngine::source_priority (engine.rs).  The ordered
root list is the discovery list of the scope at hand: the three home
roots for the global scope, the three workspace roots for a project
scope.  A source root matching none of them gets usize MAX. -/
def source_priority (orderedRoots : List Str) (package : SkillPackage) : Nat :=
  match orderedRoots.indexOf? package.source_root with
  | some idx => idx
  | none => 2 ^ 64 - 1

/-- Comparator used by the min_by election in resolve_scope_candidates
(engine.rs): priority, then source root, then canonical path.  PathBuf
ordering (lexicographic over components) is modelled as byte-lexicographic
order over the rendered path string. -/
def electCompare (orderedRoots : List Str) (lhs rhs : SkillPackage) : Ordering :=
  (compare (source_priority orderedRoots lhs) (source_priority orderedRoots rhs)).then
    ((strCompare lhs.source_root rhs.source_root).then
      (strCompare lhs.canonical_path rhs.canonical_path))

/-- Rust Iterator::min_by: the first element that is minimal under the
comparator, scanning left to right and replacing the current minimum only
on a strictly greater comparison. -/
def minByFirst {α : Type} (cmp : α → α → Ordering) : List α → Option α
  | [] => none
  | x :: xs => some (xs.foldl (fun m y => if cmp m y = .gt then y else m) x)

/-- First-occurrence deduplication of a string list, modelling iteration
over a HashSet or HashMap built by insertion.  Every deduplicated
collection of the engine model (keys, hashes, ids) is a string list. -/
def dedupFirst (l : List Str) : List Str :=
  l.foldl (fun acc a => if a ∈ acc then acc else acc ++ [a]) []

/-- Group of candidates sharing one key (the by_key entry of
resolve_scope_candidates). -/
def keyCandidates (packages : List SkillPackage) (key : Str) : List SkillPackage :=
  packages.filter (fun p => p.skill_key == key)

/-- Distinct-hash test of resolve_scope_candidates (engine.rs): more than
one distinct content hash within the group of one key. -/
def keyHasConflict (packages : List SkillPackage) (key : Str) : Bool :=
  1 < (dedupFirst ((keyCandidates packages key).map (fun p => p.package_hash))).length

/-- Embedding of SyncEngine::resolve_scope_candidates (engine.rs).  The
Rust loop iterates the HashMap groups in unspecified hash order, pushing
elections into a BTreeMap and conflicts into a Vec; the model traverses
the keys in first-appearance order and emits the same per-key decisions
into the two result lists. -/
def resolve_scope_candidates (orderedRoots : List Str) (scope : Str)
    (workspace : Option Str) (packages : List SkillPackage) :
    List (Str × SkillPackage) × List SyncConflict :=
  let keys := dedupFirst (packages.map (fun p => p.skill_key))
  (keys.flatMap (fun key =>
      if keyHasConflict packages key then []
      else
        match minByFirst (electCompare orderedRoots) (keyCandidates packages key) with
        | some p => [(key, p)]
        | none => []),
    keys.flatMap (fun key =>
      if keyHasConflict packages key then
        [{ kind := .skill, scope := scope, workspace := workspace, skill_key := key }]
      else []))

/-- Strict lexicographic order on strings, stated independently of the
executable comparator, for use in the specification-level election
ordering. -/
inductive StrLex : Str → Str → Prop
  | nil {b : Char} {bs : Str} : StrLex [] (b :: bs)
  | head {a : Char} {as : Str} {b : Char} {bs : Str}
      (h : a.toNat < b.toNat) : StrLex (a :: as) (b :: bs)
  | tail {a : Char} {as : Str} {b : Char} {bs : Str}
      (hab : a = b) (h : StrLex as bs) : StrLex (a :: as) (b :: bs)

/-- Specification-level election ordering of claim C2: lowest source-root
priority first, ties broken by source-root path, then by canonical path,
both lexicographically. -/
def ElectLe (orderedRoots : List Str) (p q : SkillPackage) : Prop :=
  source_priority orderedRoots p < source_priority orderedRoots q
  ∨ (source_priority orderedRoots p = source_priority orderedRoots q
      ∧ (StrLex p.source_root q.source_root
        ∨ (p.source_root = q.source_root
            ∧ (StrLex p.canonical_path q.canonical_path
              ∨ p.canonical_path = q.canonical_path))))

section ResolverLemmas

lemma char_toNat_inj {a b : Char} (h : a.toNat = b.toNat) : a = b := by
  have := congrArg Char.ofNat h
  rwa [Char.ofNat_toNat, Char.ofNat_toNat] at this

lemma strCompare_eq_iff : ∀ {a b : Str}, strCompare a b = .eq ↔ a = b := by
  intro a
  induction a with
  | nil =>
    intro b
    cases b with
    | nil => simp [strCompare]
    | cons y ys => simp [strCompare]
  | cons x xs ih =>
    intro b
    cases b with
    | nil => simp [strCompare]
    | cons y ys =>
      show (compare x.toNat y.toNat).then (strCompare xs ys) = .eq ↔ _
      rw [Ordering.then_eq_eq]
      constructor
      · rintro ⟨h1, h2⟩
        have hx := char_toNat_inj (Nat.compare_eq_eq.mp h1)
        have hxs := ih.mp h2
        rw [hx, hxs]
      · intro h
        injection h with h1 h2
        subst h1
        subst h2
        exact ⟨Nat.compare_eq_eq.mpr rfl, ih.mpr rfl⟩

lemma strCompare_lt_iff_lex : ∀ {a b : Str}, strCompare a b = .lt ↔ StrLex a b := by
  intro a
  induction a with
  | nil =>
    intro b
    cases b with
    | nil =>
      constructor
      · intro h; exact absurd h (by decide)
      · intro h; cases h
    | cons y ys =>
      constructor
      · intro _; exact StrLex.nil
      · intro _; rfl
  | cons x xs ih =>
    intro b
    cases b with
    | nil =>
      constructor
      · intro h; exact Ordering.noConfusion h
      · intro h; cases h
    | cons y ys =>
      show (compare x.toNat y.toNat).then (strCompare xs ys) = .lt ↔ _
      rw [Ordering.then_eq_lt]
      constructor
      · rintro (h | ⟨h1, h2⟩)
        · exact StrLex.head (Nat.compare_eq_lt.mp h)
        · exact StrLex.tail (char_toNat_inj (Nat.compare_eq_eq.mp h1)) (ih.mp h2)
      · intro h
        cases h with
        | head h => exact Or.inl (Nat.compare_eq_lt.mpr h)
        | tail hab h =>
          subst hab
          exact Or.inr ⟨Nat.compare_eq_eq.mpr rfl, ih.mpr h⟩

/-- Laws satisfied by every comparator used in the engine: antisymmetric
orientation under swap and transitivity of the not-greater relation. -/
structure LawfulCmp {α : Type} (cmp : α → α → Ordering) : Prop where
  swap_eq : ∀ a b, (cmp a b).swap = cmp b a
  le_trans : ∀ {a b c}, cmp a b ≠ .gt → cmp b c ≠ .gt → cmp a c ≠ .gt

lemma ordering_ne_gt_iff (o : Ordering) : o ≠ .gt ↔ o = .lt ∨ o = .eq := by
  cases o <;> simp

lemma LawfulCmp.gt_iff_lt {α : Type} {cmp : α → α → Ordering}
    (h : LawfulCmp cmp) {a b : α} : cmp a b = .gt ↔ cmp b a = .lt := by
  constructor
  · intro hab
    have := h.swap_eq a b
    rw [hab] at this
    rw [← this]
    rfl
  · intro hba
    have := h.swap_eq b a
    rw [hba] at this
    rw [← this]
    rfl

lemma LawfulCmp.eq_symm {α : Type} {cmp : α → α → Ordering}
    (h : LawfulCmp cmp) {a b : α} (hab : cmp a b = .eq) : cmp b a = .eq := by
  have := h.swap_eq a b
  rw [hab] at this
  rw [← this]
  rfl

lemma LawfulCmp.refl_eq {α : Type} {cmp : α → α → Ordering}
    (h : LawfulCmp cmp) (a : α) : cmp a a = .eq := by
  have := h.swap_eq a a
  cases hc : cmp a a with
  | lt => rw [hc] at this; exact absurd this (by decide)
  | eq => rfl
  | gt => rw [hc] at this; exact absurd this (by decide)

lemma LawfulCmp.lt_trans {α : Type} {cmp : α → α → Ordering}
    (h : LawfulCmp cmp) {a b c : α}
    (h1 : cmp a b = .lt) (h2 : cmp b c = .lt) : cmp a c = .lt := by
  have hle : cmp a c ≠ .gt :=
    h.le_trans (by rw [h1]; decide) (by rw [h2]; decide)
  rcases (ordering_ne_gt_iff _).mp hle with hlt | heq
  · exact hlt
  · exfalso
    have hca : cmp c a = .eq := h.eq_symm heq
    have : cmp c b ≠ .gt :=
      h.le_trans (by rw [hca]; decide) (by rw [h1]; decide)
    exact this (h.gt_iff_lt.mpr h2)

lemma LawfulCmp.lt_of_lt_of_eq {α : Type} {cmp : α → α → Ordering}
    (h : LawfulCmp cmp) {a b c : α}
    (h1 : cmp a b = .lt) (h2 : cmp b c = .eq) : cmp a c = .lt := by
  have hle : cmp a c ≠ .gt :=
    h.le_trans (by rw [h1]; decide) (by rw [h2]; decide)
  rcases (ordering_ne_gt_iff _).mp hle with hlt | heq
  · exact hlt
  · exfalso
    have hca : cmp c a = .eq := h.eq_symm heq
    have hbc : cmp b c ≠ .gt := by rw [h2]; decide
    have : cmp b a ≠ .gt := h.le_trans hbc (by rw [hca]; decide)
    exact this (h.gt_iff_lt.mpr h1)

lemma LawfulCmp.lt_of_eq_of_lt {α : Type} {cmp : α → α → Ordering}
    (h : LawfulCmp cmp) {a b c : α}
    (h1 : cmp a b = .eq) (h2 : cmp b c = .lt) : cmp a c = .lt := by
  have hle : cmp a c ≠ .gt :=
    h.le_trans (by rw [h1]; decide) (by rw [h2]; decide)
  rcases (ordering_ne_gt_iff _).mp hle with hlt | heq
  · exact hlt
  · exfalso
    have hca : cmp c a = .eq := h.eq_symm heq
    have : cmp c b ≠ .gt :=
      h.le_trans (by rw [hca]; decide) (by rw [h1]; decide)
    exact this (h.gt_iff_lt.mpr h2)

lemma LawfulCmp.eq_trans {α : Type} {cmp : α → α → Ordering}
    (h : LawfulCmp cmp) {a b c : α}
    (h1 : cmp a b = .eq) (h2 : cmp b c = .eq) : cmp a c = .eq := by
  have hle : cmp a c ≠ .gt :=
    h.le_trans (by rw [h1]; decide) (by rw [h2]; decide)
  rcases (ordering_ne_gt_iff _).mp hle with hlt | heq
  · exfalso
    have hcb : cmp c b = .eq := h.eq_symm h2
    have hba : cmp b a = .eq := h.eq_symm h1
    have : cmp c a ≠ .gt :=
      h.le_trans (by rw [hcb]; decide) (by rw [hba]; decide)
    exact this (h.gt_iff_lt.mpr hlt)
  · exact heq

lemma lawful_then {α : Type} {f g : α → α → Ordering}
    (hf : LawfulCmp f) (hg : LawfulCmp g) :
    LawfulCmp (fun a b => (f a b).then (g a b)) := by
  constructor
  · intro a b
    rw [Ordering.swap_then, hf.swap_eq, hg.swap_eq]
  · intro a b c h1 h2
    have d1 : f a b = .lt ∨ (f a b = .eq ∧ g a b ≠ .gt) := by
      rcases hfo : f a b with _ | _ | _
      · exact Or.inl rfl
      · refine Or.inr ⟨rfl, ?_⟩
        intro hgo
        exact h1 (Ordering.then_eq_gt.mpr (Or.inr ⟨hfo, hgo⟩))
      · exact absurd (Ordering.then_eq_gt.mpr (Or.inl hfo)) h1
    have d2 : f b c = .lt ∨ (f b c = .eq ∧ g b c ≠ .gt) := by
      rcases hfo : f b c with _ | _ | _
      · exact Or.inl rfl
      · refine Or.inr ⟨rfl, ?_⟩
        intro hgo
        exact h2 (Ordering.then_eq_gt.mpr (Or.inr ⟨hfo, hgo⟩))
      · exact absurd (Ordering.then_eq_gt.mpr (Or.inl hfo)) h2
    intro hcontra
    rcases Ordering.then_eq_gt.mp hcontra with hgt | ⟨heq, hggt⟩
    · rcases d1 with hl1 | ⟨he1, _⟩ <;> rcases d2 with hl2 | ⟨he2, _⟩
      · rw [hf.lt_trans hl1 hl2] at hgt; cases hgt
      · rw [hf.lt_of_lt_of_eq hl1 he2] at hgt; cases hgt
      · rw [hf.lt_of_eq_of_lt he1 hl2] at hgt; cases hgt
      · rw [hf.eq_trans he1 he2] at hgt; cases hgt
    · rcases d1 with hl1 | ⟨he1, hg1⟩ <;> rcases d2 with hl2 | ⟨he2, hg2⟩
      · rw [hf.lt_trans hl1 hl2] at heq; cases heq
      · rw [hf.lt_of_lt_of_eq hl1 he2] at heq; cases heq
      · rw [hf.lt_of_eq_of_lt he1 hl2] at heq; cases heq
      · exact hg.le_trans hg1 hg2 hggt

lemma lawful_natCompare : LawfulCmp (fun a b : Nat => compare a b) := by
  constructor
  · exact natCompare_swap
  · intro a b c h1 h2 hcontra
    have hab : ¬ b < a := fun h => h1 (Nat.compare_eq_gt.mpr h)
    have hbc : ¬ c < b := fun h => h2 (Nat.compare_eq_gt.mpr h)
    have := Nat.compare_eq_gt.mp hcontra
    omega

lemma lawful_strCompare : LawfulCmp strCompare := by
  constructor
  · exact strCompare_swap
  · intro a b c h1 h2
    exact strCompare_le_trans h1 h2

lemma lawful_pullback {α β : Type} {cmp : β → β → Ordering} (f : α → β)
    (h : LawfulCmp cmp) : LawfulCmp (fun a b => cmp (f a) (f b)) := by
  constructor
  · intro a b
    exact h.swap_eq (f a) (f b)
  · intro a b c h1 h2
    exact h.le_trans h1 h2

lemma lawful_electCompare (orderedRoots : List Str) :
    LawfulCmp (electCompare orderedRoots) := by
  have hc1 : LawfulCmp
      (fun p q : SkillPackage =>
        compare (source_priority orderedRoots p) (source_priority orderedRoots q)) :=
    lawful_pullback (source_priority orderedRoots) lawful_natCompare
  have hc2 : LawfulCmp
      (fun p q : SkillPackage => strCompare p.source_root q.source_root) :=
    lawful_pullback (fun p => p.source_root) lawful_strCompare
  have hc3 : LawfulCmp
      (fun p q : SkillPackage => strCompare p.canonical_path q.canonical_path) :=
    lawful_pullback (fun p => p.canonical_path) lawful_strCompare
  exact lawful_then hc1 (lawful_then hc2 hc3)

lemma minByFirst_foldl_spec {α : Type} {cmp : α → α → Ordering}
    (h : LawfulCmp cmp) :
    ∀ (xs : List α) (m0 : α),
      (xs.foldl (fun m y => if cmp m y = .gt then y else m) m0) ∈ m0 :: xs
      ∧ ∀ q ∈ m0 :: xs,
          cmp (xs.foldl (fun m y => if cmp m y = .gt then y else m) m0) q ≠ .gt := by
  intro xs
  induction xs with
  | nil =>
    intro m0
    simp only [List.foldl_nil]
    refine ⟨List.mem_cons_self _ _, ?_⟩
    intro q hq
    rcases List.mem_cons.mp hq with rfl | hq
    · rw [h.refl_eq]
      decide
    · cases hq
  | cons y ys ih =>
    intro m0
    rw [List.foldl_cons]
    by_cases hgt : cmp m0 y = .gt
    · rw [if_pos hgt]
      obtain ⟨hmem, hmin⟩ := ih y
      constructor
      · rcases List.mem_cons.mp hmem with hm | hm
        · rw [hm]; exact List.mem_cons_of_mem _ (List.mem_cons_self _ _)
        · exact List.mem_cons_of_mem _ (List.mem_cons_of_mem _ hm)
      · intro q hq
        rcases List.mem_cons.mp hq with rfl | hq
        · have hym : cmp y q ≠ .gt := by
            have := h.gt_iff_lt.mp hgt
            rw [this]
            decide
          exact h.le_trans (hmin y (List.mem_cons_self _ _)) hym
        · exact hmin q hq
    · rw [if_neg hgt]
      obtain ⟨hmem, hmin⟩ := ih m0
      constructor
      · rcases List.mem_cons.mp hmem with hm | hm
        · rw [hm]; exact List.mem_cons_self _ _
        · exact List.mem_cons_of_mem _ (List.mem_cons_of_mem _ hm)
      · intro q hq
        rcases List.mem_cons.mp hq with rfl | hq
        · exact hmin q (List.mem_cons_self _ _)
        · rcases List.mem_cons.mp hq with rfl | hq
          · exact h.le_trans (hmin m0 (List.mem_cons_self _ _)) hgt
          · exact hmin q (List.mem_cons_of_mem _ hq)

lemma minByFirst_spec {α : Type} {cmp : α → α → Ordering} (h : LawfulCmp cmp)
    {l : List α} {m : α} (hm : minByFirst cmp l = some m) :
    m ∈ l ∧ ∀ q ∈ l, cmp m q ≠ .gt := by
  cases l with
  | nil => cases hm
  | cons x xs =>
    have := minByFirst_foldl_spec h xs x
    unfold minByFirst at hm
    injection hm with hm
    rw [hm] at this
    exact this

lemma mem_dedupFirst_aux :
    ∀ (l acc : List Str) (a : Str),
      a ∈ l.foldl (fun acc x => if x ∈ acc then acc else acc ++ [x]) acc ↔
        a ∈ acc ∨ a ∈ l := by
  intro l
  induction l with
  | nil => intro acc a; simp
  | cons x xs ih =>
    intro acc a
    rw [List.foldl_cons]
    by_cases hx : x ∈ acc
    · rw [if_pos hx, ih]
      constructor
      · rintro (hacc | hxs)
        · exact Or.inl hacc
        · exact Or.inr (List.mem_cons_of_mem _ hxs)
      · rintro (hacc | hmem)
        · exact Or.inl hacc
        · rcases List.mem_cons.mp hmem with heq | hxs
          · subst heq; exact Or.inl hx
          · exact Or.inr hxs
    · rw [if_neg hx, ih]
      constructor
      · rintro (hacc | hxs)
        · rcases List.mem_append.mp hacc with hacc | hone
          · exact Or.inl hacc
          · rcases List.mem_singleton.mp hone with heq
            subst heq
            exact Or.inr (List.mem_cons_self _ _)
        · exact Or.inr (List.mem_cons_of_mem _ hxs)
      · rintro (hacc | hmem)
        · exact Or.inl (List.mem_append.mpr (Or.inl hacc))
        · rcases List.mem_cons.mp hmem with heq | hxs
          · subst heq
            exact Or.inl (List.mem_append.mpr (Or.inr (List.mem_singleton.mpr rfl)))
          · exact Or.inr hxs

lemma mem_dedupFirst {l : List Str} {a : Str} :
    a ∈ dedupFirst l ↔ a ∈ l := by
  unfold dedupFirst
  rw [mem_dedupFirst_aux]
  simp

lemma nodup_dedupFirst_aux :
    ∀ (l acc : List Str), acc.Nodup →
      (l.foldl (fun acc x => if x ∈ acc then acc else acc ++ [x]) acc).Nodup := by
  intro l
  induction l with
  | nil => intro acc h; exact h
  | cons x xs ih =>
    intro acc h
    rw [List.foldl_cons]
    by_cases hx : x ∈ acc
    · rw [if_pos hx]; exact ih acc h
    · rw [if_neg hx]
      refine ih _ ?_
      rw [List.nodup_append]
      exact ⟨h, List.nodup_singleton x, by
        intro a ha hb
        rcases List.mem_singleton.mp hb with rfl
        exact hx ha⟩

lemma nodup_dedupFirst (l : List Str) :
    (dedupFirst l).Nodup :=
  nodup_dedupFirst_aux l [] List.nodup_nil

lemma filter_eq_self_of_forall {β : Type} {p : β → Bool} {l : List β}
    (h : ∀ b ∈ l, p b = true) : l.filter p = l := by
  induction l with
  | nil => rfl
  | cons x xs ih =>
    rw [List.filter_cons, if_pos (h x (List.mem_cons_self x xs)),
      ih (fun b hb => h b (List.mem_cons_of_mem x hb))]

lemma filter_eq_nil_of_forall {β : Type} {p : β → Bool} {l : List β}
    (h : ∀ b ∈ l, p b = false) : l.filter p = [] := by
  induction l with
  | nil => rfl
  | cons x xs ih =>
    rw [List.filter_cons, if_neg (by rw [h x (List.mem_cons_self x xs)]; simp),
      ih (fun b hb => h b (List.mem_cons_of_mem x hb))]

lemma filter_flatMap_key {β : Type} (key : Str) (keyOf : β → Str) :
    ∀ (keys : List Str) (g : Str → List β),
      keys.Nodup → (∀ k, ∀ b ∈ g k, keyOf b = k) → key ∈ keys →
      (keys.flatMap g).filter (fun b => keyOf b == key) = g key := by
  intro keys
  induction keys with
  | nil => intro g _ _ hmem; cases hmem
  | cons k ks ih =>
    intro g hnd hg hmem
    rw [List.flatMap_cons, List.filter_append]
    rcases List.mem_cons.mp hmem with rfl | hmem2
    · have h1 : (g key).filter (fun b => keyOf b == key) = g key :=
        filter_eq_self_of_forall (fun b hb => by
          rw [hg key b hb]; exact beq_self_eq_true _)
      have hkeyn : key ∉ ks := (List.nodup_cons.mp hnd).1
      have h2 : (ks.flatMap g).filter (fun b => keyOf b == key) = [] := by
        apply filter_eq_nil_of_forall
        intro b hb
        obtain ⟨k2, hk2, hbk2⟩ := List.mem_flatMap.mp hb
        rw [hg k2 b hbk2]
        exact beq_eq_false_iff_ne.mpr (fun he => hkeyn (he ▸ hk2))
      rw [h1, h2, List.append_nil]
    · have hkne : k ≠ key := fun he => (List.nodup_cons.mp hnd).1 (he ▸ hmem2)
      have h1 : (g k).filter (fun b => keyOf b == key) = [] := by
        apply filter_eq_nil_of_forall
        intro b hb
        rw [hg k b hb]
        exact beq_eq_false_iff_ne.mpr hkne
      rw [h1, List.nil_append]
      exact ih g (List.nodup_cons.mp hnd).2 hg hmem2

lemma one_lt_dedup_length_iff (l : List Str) :
    1 < (dedupFirst l).length ↔ ∃ a ∈ l, ∃ b ∈ l, a ≠ b := by
  constructor
  · intro h
    rcases hd : dedupFirst l with _ | ⟨x, _ | ⟨y, rest⟩⟩
    · rw [hd] at h; simp at h
    · rw [hd] at h; simp at h
    · have hx : x ∈ l := mem_dedupFirst.mp (by rw [hd]; exact List.mem_cons_self _ _)
      have hy : y ∈ l := mem_dedupFirst.mp (by
        rw [hd]; exact List.mem_cons_of_mem _ (List.mem_cons_self _ _))
      have hnd := nodup_dedupFirst l
      rw [hd] at hnd
      have hxy : x ≠ y := by
        intro he
        subst he
        exact (List.nodup_cons.mp hnd).1 (List.mem_cons_self _ _)
      exact ⟨x, hx, y, hy, hxy⟩
  · rintro ⟨a, ha, b, hb, hab⟩
    have ha2 : a ∈ dedupFirst l := mem_dedupFirst.mpr ha
    have hb2 : b ∈ dedupFirst l := mem_dedupFirst.mpr hb
    rcases hd : dedupFirst l with _ | ⟨x, _ | ⟨y, rest⟩⟩
    · rw [hd] at ha2; cases ha2
    · rw [hd] at ha2 hb2
      have hax : a = x := by simpa using ha2
      have hbx : b = x := by simpa using hb2
      exact absurd (hax.trans hbx.symm) hab
    · simp

lemma resolve_fst_eq (orderedRoots : List Str) (scope : Str)
    (workspace : Option Str) (packages : List SkillPackage) :
    (resolve_scope_candidates orderedRoots scope workspace packages).1 =
      (dedupFirst (packages.map (fun p => p.skill_key))).flatMap (fun key =>
        if keyHasConflict packages key then []
        else
          match minByFirst (electCompare orderedRoots) (keyCandidates packages key) with
          | some p => [(key, p)]
          | none => []) := rfl

lemma resolve_snd_eq (orderedRoots : List Str) (scope : Str)
    (workspace : Option Str) (packages : List SkillPackage) :
    (resolve_scope_candidates orderedRoots scope workspace packages).2 =
      (dedupFirst (packages.map (fun p => p.skill_key))).flatMap (fun key =>
        if keyHasConflict packages key then
          [{ kind := .skill, scope := scope, workspace := workspace,
             skill_key := key }]
        else []) := rfl

lemma electLe_of_compare_ne_gt {orderedRoots : List Str} {p q : SkillPackage}
    (h : electCompare orderedRoots p q ≠ .gt) : ElectLe orderedRoots p q := by
  unfold electCompare at h
  rcases (ordering_ne_gt_iff _).mp h with hlt | heq
  · rcases Ordering.then_eq_lt.mp hlt with h1 | ⟨h1, h2⟩
    · exact Or.inl (Nat.compare_eq_lt.mp h1)
    · refine Or.inr ⟨Nat.compare_eq_eq.mp h1, ?_⟩
      rcases Ordering.then_eq_lt.mp h2 with h3 | ⟨h3, h4⟩
      · exact Or.inl (strCompare_lt_iff_lex.mp h3)
      · exact Or.inr ⟨strCompare_eq_iff.mp h3,
          Or.inl (strCompare_lt_iff_lex.mp h4)⟩
  · obtain ⟨h1, h2⟩ := Ordering.then_eq_eq.mp heq
    obtain ⟨h3, h4⟩ := Ordering.then_eq_eq.mp h2
    exact Or.inr ⟨Nat.compare_eq_eq.mp h1,
      Or.inr ⟨strCompare_eq_iff.mp h3, Or.inr (strCompare_eq_iff.mp h4)⟩⟩

end ResolverLemmas

/-- Claim C2: within one scope the resolver groups candidates by key; a
key whose group carries more than one distinct content hash produces
exactly one conflict record (kind skill, with the scope, workspace and
key) and no election, while a key whose group carries a single distinct
hash elects the minimum of the group under lowest source-root priority
with ties broken by source-root path and then canonical path,
lexicographically. -/
theorem resolve_scope_candidates_spec
    (orderedRoots : List Str) (scope : Str) (workspace : Option Str)
    (packages : List SkillPackage) (key : Str)
    (hkey : key ∈ packages.map (fun p => p.skill_key)) :
    (keyHasConflict packages key = true ↔
        ∃ p ∈ keyCandidates packages key, ∃ q ∈ keyCandidates packages key,
          p.package_hash ≠ q.package_hash)
    ∧ (keyHasConflict packages key = true →
        (resolve_scope_candidates orderedRoots scope workspace packages).2.filter
            (fun c => c.skill_key == key) =
          [{ kind := .skill, scope := scope, workspace := workspace,
             skill_key := key }]
        ∧ (resolve_scope_candidates orderedRoots scope workspace packages).1.filter
            (fun pr => pr.1 == key) = [])
    ∧ (keyHasConflict packages key = false →
        ∃ p, (resolve_scope_candidates orderedRoots scope workspace packages).1.filter
              (fun pr => pr.1 == key) = [(key, p)]
          ∧ p ∈ keyCandidates packages key
          ∧ (∀ q ∈ keyCandidates packages key, ElectLe orderedRoots p q)
          ∧ (resolve_scope_candidates orderedRoots scope workspace packages).2.filter
              (fun c => c.skill_key == key) = []) := by
  have hkeys_nd : (dedupFirst (packages.map (fun p => p.skill_key))).Nodup :=
    nodup_dedupFirst _
  have hkeys_mem : key ∈ dedupFirst (packages.map (fun p => p.skill_key)) :=
    mem_dedupFirst.mpr hkey
  have hg1 : ∀ k : Str, ∀ b : SyncConflict,
      b ∈ (if keyHasConflict packages k then
          [{ kind := .skill, scope := scope, workspace := workspace,
             skill_key := k }]
        else ([] : List SyncConflict)) → b.skill_key = k := by
    intro k b hb
    by_cases hk : keyHasConflict packages k = true
    · rw [if_pos hk] at hb
      rcases List.mem_singleton.mp hb with rfl
      rfl
    · rw [if_neg hk] at hb
      cases hb
  have hconf_filter :
      (resolve_scope_candidates orderedRoots scope workspace packages).2.filter
          (fun c => c.skill_key == key) =
        (if keyHasConflict packages key then
          [{ kind := .skill, scope := scope, workspace := workspace,
             skill_key := key }]
        else []) := by
    rw [resolve_snd_eq]
    exact filter_flatMap_key (β := SyncConflict) key (fun c => c.skill_key)
      (dedupFirst (packages.map (fun p => p.skill_key)))
      (fun k2 =>
        if keyHasConflict packages k2 then
          [{ kind := .skill, scope := scope, workspace := workspace,
             skill_key := k2 }]
        else [])
      hkeys_nd hg1 hkeys_mem
  have hg2 : ∀ k : Str, ∀ b : Str × SkillPackage,
      b ∈ (if keyHasConflict packages k then ([] : List (Str × SkillPackage))
        else
          match minByFirst (electCompare orderedRoots) (keyCandidates packages k) with
          | some p => [(k, p)]
          | none => []) → b.1 = k := by
    intro k b hb
    by_cases hk : keyHasConflict packages k = true
    · rw [if_pos hk] at hb
      cases hb
    · rw [if_neg hk] at hb
      rcases hmin : minByFirst (electCompare orderedRoots) (keyCandidates packages k) with
        _ | p
      · rw [hmin] at hb
        cases hb
      · rw [hmin] at hb
        rcases List.mem_singleton.mp hb with rfl
        rfl
  have helect_filter :
      (resolve_scope_candidates orderedRoots scope workspace packages).1.filter
          (fun pr => pr.1 == key) =
        (if keyHasConflict packages key then ([] : List (Str × SkillPackage))
        else
          match minByFirst (electCompare orderedRoots) (keyCandidates packages key) with
          | some p => [(key, p)]
          | none => []) := by
    rw [resolve_fst_eq]
    exact filter_flatMap_key (β := Str × SkillPackage) key (fun pr => pr.1)
      (dedupFirst (packages.map (fun p => p.skill_key)))
      (fun k2 =>
        if keyHasConflict packages k2 then []
        else
          match minByFirst (electCompare orderedRoots) (keyCandidates packages k2) with
          | some p => [(k2, p)]
          | none => [])
      hkeys_nd hg2 hkeys_mem
  refine ⟨?_, ?_, ?_⟩
  · simp only [keyHasConflict, decide_eq_true_eq]
    rw [one_lt_dedup_length_iff]
    constructor
    · rintro ⟨a, ha, b, hb, hab⟩
      obtain ⟨p, hp, hpa⟩ := List.mem_map.mp ha
      obtain ⟨q, hq, hqb⟩ := List.mem_map.mp hb
      exact ⟨p, hp, q, hq, by rw [hpa, hqb]; exact hab⟩
    · rintro ⟨p, hp, q, hq, hpq⟩
      exact ⟨p.package_hash, List.mem_map.mpr ⟨p, hp, rfl⟩,
        q.package_hash, List.mem_map.mpr ⟨q, hq, rfl⟩, hpq⟩
  · intro hconf
    rw [hconf_filter, helect_filter, if_pos hconf, if_pos hconf]
    exact ⟨rfl, rfl⟩
  · intro hnoconf
    have hne : keyCandidates packages key ≠ [] := by
      obtain ⟨p, hp, hpk⟩ := List.mem_map.mp hkey
      intro hnil
      have : p ∈ keyCandidates packages key := by
        rw [keyCandidates]
        exact List.mem_filter.mpr ⟨hp, by rw [hpk]; exact beq_self_eq_true _⟩
      rw [hnil] at this
      cases this
    rcases hmin : minByFirst (electCompare orderedRoots) (keyCandidates packages key) with
      _ | p
    · exfalso
      cases hcand : keyCandidates packages key with
      | nil => exact hne hcand
      | cons x xs =>
        rw [hcand] at hmin
        cases hmin
    · obtain ⟨hmem, hminle⟩ := minByFirst_spec (lawful_electCompare orderedRoots) hmin
      refine ⟨p, ?_, hmem, ?_, ?_⟩
      · rw [helect_filter, if_neg (by rw [hnoconf]; simp), hmin]
      · intro q hq
        exact electLe_of_compare_ne_gt (hminle q hq)
      · rw [hconf_filter, if_neg (by rw [hnoconf]; simp)]

/-- Concrete global roots for witnesses: the three home skill roots in
priority order. -/
def exGlobalSkillRoots : List Str :=
  ["/home/u/.claude/skills".toList, "/home/u/.agents/skills".toList,
   "/home/u/.codex/skills".toList]

/-- Concrete candidate discovered under the agents root. -/
def exPkgAgents : SkillPackage :=
  { source_root := "/home/u/.agents/skills".toList,
    skill_key := "alpha".toList,
    name := "alpha".toList,
    canonical_path := "/home/u/.agents/skills/alpha".toList,
    package_hash := "h1".toList }

/-- Concrete candidate discovered under the claude root, same key and
hash. -/
def exPkgClaude : SkillPackage :=
  { source_root := "/home/u/.claude/skills".toList,
    skill_key := "alpha".toList,
    name := "alpha".toList,
    canonical_path := "/home/u/.claude/skills/alpha".toList,
    package_hash := "h1".toList }

/-- Witness for claim C2 at a concrete two-candidate single-hash input. -/
theorem resolve_scope_candidates_spec_witness :
    ("alpha".toList ∈ ([exPkgAgents, exPkgClaude].map (fun p => p.skill_key)))
    ∧ ((keyHasConflict [exPkgAgents, exPkgClaude] ("alpha".toList) = true ↔
        ∃ p ∈ keyCandidates [exPkgAgents, exPkgClaude] ("alpha".toList),
          ∃ q ∈ keyCandidates [exPkgAgents, exPkgClaude] ("alpha".toList),
            p.package_hash ≠ q.package_hash)
    ∧ (keyHasConflict [exPkgAgents, exPkgClaude] ("alpha".toList) = true →
        (resolve_scope_candidates exGlobalSkillRoots ("global".toList) none
            [exPkgAgents, exPkgClaude]).2.filter
            (fun c => c.skill_key == "alpha".toList) =
          [{ kind := .skill, scope := "global".toList, workspace := none,
             skill_key := "alpha".toList }]
        ∧ (resolve_scope_candidates exGlobalSkillRoots ("global".toList) none
            [exPkgAgents, exPkgClaude]).1.filter
            (fun pr => pr.1 == "alpha".toList) = [])
    ∧ (keyHasConflict [exPkgAgents, exPkgClaude] ("alpha".toList) = false →
        ∃ p, (resolve_scope_candidates exGlobalSkillRoots ("global".toList) none
              [exPkgAgents, exPkgClaude]).1.filter
              (fun pr => pr.1 == "alpha".toList) = [("alpha".toList, p)]
          ∧ p ∈ keyCandidates [exPkgAgents, exPkgClaude] ("alpha".toList)
          ∧ (∀ q ∈ keyCandidates [exPkgAgents, exPkgClaude] ("alpha".toList),
              ElectLe exGlobalSkillRoots p q)
          ∧ (resolve_scope_candidates exGlobalSkillRoots ("global".toList) none
              [exPkgAgents, exPkgClaude]).2.filter
              (fun c => c.skill_key == "alpha".toList) = [])) :=
  ⟨by decide,
    resolve_scope_candidates_spec exGlobalSkillRoots ("global".toList) none
      [exPkgAgents, exPkgClaude] ("alpha".toList) (by decide)⟩

/-- Lifecycle status (models.rs SkillLifecycleStatus; the derived Rust
Ord sorts Active before Archived). -/
inductive SkillLifecycleStatus
  | active
  | archived
deriving DecidableEq

/-- Derived Ord of SkillLifecycleStatus. -/
def statusCompare : SkillLifecycleStatus → SkillLifecycleStatus → Ordering
  | .active, .active => .eq
  | .active, .archived => .lt
  | .archived, .active => .gt
  | .archived, .archived => .eq

/-- Rust Option Ord: None sorts before Some, Some compares the payload. -/
def optionStrCompare : Option Str → Option Str → Ordering
  | none, none => .eq
  | none, some _ => .lt
  | some _, none => .gt
  | some a, some b => strCompare a b

/-- Snapshot skill record (models.rs SkillRecord).  The boolean and
archive metadata fields not consulted by any modelled code path (exists,
is_symlink_canonical, package_type, symlink_target, archived_at,
archived_bundle_path, archived_original_scope, archived_original_workspace)
are elided. -/
structure SkillRecord where
  id : Str
  name : Str
  scope : Str
  workspace : Option Str
  canonical_source_path : Str
  target_paths : List Str
  skill_key : Str
  status : SkillLifecycleStatus
deriving DecidableEq

/-- Snapshot subagent record (models.rs SubagentRecord), with the same
elisions as SkillRecord. -/
structure SubagentRecord where
  id : Str
  name : Str
  description : Str
  scope : Str
  workspace : Option Str
  subagent_key : Str
deriving DecidableEq

/-- Snapshot remote-tool record (models.rs McpServerRecord); only the key
is consulted by the modelled paths. -/
structure McpServerRecord where
  server_key : Str
deriving DecidableEq

/-- Snapshot health status (models.rs SyncHealthStatus). -/
inductive SyncHealthStatus
  | ok
  | failed
  | syncing
  | unknown
deriving DecidableEq

/-- Snapshot summary block (models.rs SyncSummary). -/
structure SyncSummary where
  global_count : Nat
  project_count : Nat
  conflict_count : Nat
  mcp_count : Nat
  mcp_warning_count : Nat
deriving DecidableEq

/-- Snapshot sync metadata (models.rs SyncMetadata). -/
structure SyncMetadata where
  status : SyncHealthStatus
  last_started_at : Option Str
  last_finished_at : Option Str
  duration_ms : Option Nat
  error : Option Str
  warnings : List Str
deriving DecidableEq

/-- Persisted snapshot (models.rs SyncState). -/
structure SyncState where
  version : Nat
  generated_at : Str
  sync : SyncMetadata
  summary : SyncSummary
  subagent_summary : SyncSummary
  skills : List SkillRecord
  subagents : List SubagentRecord
  mcp_servers : List McpServerRecord
  top_skills : List Str
  top_subagents : List Str
deriving DecidableEq

/-- Outcome of the remote-tool registry sync consumed by make_state
(mcp_registry.rs McpSyncOutcome). -/
structure McpSyncOutcome where
  records : List McpServerRecord
  warnings : List Str
deriving DecidableEq

/-- Comparator sort_entries (engine.rs): status, scope, ASCII-lowercased
name, workspace. -/
def sort_entries (lhs rhs : SkillRecord) : Ordering :=
  (statusCompare lhs.status rhs.status).then
    ((strCompare lhs.scope rhs.scope).then
      ((strCompare (lhs.name.map toAsciiLower) (rhs.name.map toAsciiLower)).then
        (optionStrCompare lhs.workspace rhs.workspace)))

/-- Comparator sort_subagent_entries (engine.rs): scope, ASCII-lowercased
name, workspace. -/
def sort_subagent_entries (lhs rhs : SubagentRecord) : Ordering :=
  (strCompare lhs.scope rhs.scope).then
    ((strCompare (lhs.name.map toAsciiLower) (rhs.name.map toAsciiLower)).then
      (optionStrCompare lhs.workspace rhs.workspace))

/-- Embedding of SyncEngine::make_state (engine.rs): sort the listings,
take the first six ids of each as the top lists, compute the summary
counts, and assemble the snapshot.  Timestamps are opaque strings and the
duration is passed in. -/
def make_state (status : SyncHealthStatus) (entries : List SkillRecord)
    (subagentEntries : List SubagentRecord) (mcpOutcome : McpSyncOutcome)
    (skillConflictCount subagentConflictCount : Nat)
    (started finished : Str) (durationMs : Nat) (error : Option Str) :
    SyncState :=
  let sortedEntries := entries.mergeSort (fun a b => (sort_entries a b).isLE)
  let sortedSubagents :=
    subagentEntries.mergeSort (fun a b => (sort_subagent_entries a b).isLE)
  let topSkillIds := (sortedEntries.take 6).map (fun item => item.id)
  let topSubagentIds := (sortedSubagents.take 6).map (fun item => item.id)
  { version := 2
    generated_at := finished
    sync :=
      { status := status
        last_started_at := some started
        last_finished_at := some finished
        duration_ms := some durationMs
        error := error
        warnings := mcpOutcome.warnings }
    summary :=
      { global_count := (sortedEntries.filter (fun entry =>
          entry.scope == "global".toList
            && entry.status == SkillLifecycleStatus.active)).length
        project_count := (sortedEntries.filter (fun entry =>
          entry.scope == "project".toList
            && entry.status == SkillLifecycleStatus.active)).length
        conflict_count := skillConflictCount
        mcp_count := mcpOutcome.records.length
        mcp_warning_count := mcpOutcome.warnings.length }
    subagent_summary :=
      { global_count := (sortedSubagents.filter (fun entry =>
          entry.scope == "global".toList)).length
        project_count := (sortedSubagents.filter (fun entry =>
          entry.scope == "project".toList)).length
        conflict_count := subagentConflictCount
        mcp_count := 0
        mcp_warning_count := 0 }
    skills := sortedEntries
    subagents := sortedSubagents
    mcp_servers := mcpOutcome.records
    top_skills := topSkillIds
    top_subagents := topSubagentIds }

/-- Embedding of SyncEngine::make_failed_state (engine.rs): a failed
snapshot whose listing fields and non-conflict summary counts mirror the
previous snapshot. -/
def make_failed_state (previous : SyncState) (started finished : Str)
    (durationMs : Nat) (error : Str)
    (skillConflictCount subagentConflictCount : Nat) : SyncState :=
  { version := 2
    generated_at := finished
    sync :=
      { status := .failed
        last_started_at := some started
        last_finished_at := some finished
        duration_ms := some durationMs
        error := some error
        warnings := previous.sync.warnings }
    summary :=
      { global_count := previous.summary.global_count
        project_count := previous.summary.project_count
        conflict_count := skillConflictCount
        mcp_count := previous.summary.mcp_count
        mcp_warning_count := previous.summary.mcp_warning_count }
    subagent_summary :=
      { global_count := previous.subagent_summary.global_count
        project_count := previous.subagent_summary.project_count
        conflict_count := subagentConflictCount
        mcp_count := previous.subagent_summary.mcp_count
        mcp_warning_count := previous.subagent_summary.mcp_warning_count }
    skills := previous.skills
    subagents := previous.subagents
    mcp_servers := previous.mcp_servers
    top_skills := previous.top_skills
    top_subagents := previous.top_subagents }

/-- Claim C10: in every snapshot assembled by make_state, the top_skills
and top_subagents lists are the first at most six record ids of the
snapshot listing in its sort order; in particular each holds at most six
ids and every listed id belongs to a record of the same snapshot. -/
theorem make_state_top_listing (status : SyncHealthStatus)
    (entries : List SkillRecord) (subagentEntries : List SubagentRecord)
    (mcpOutcome : McpSyncOutcome) (scc sbc : Nat) (started finished : Str)
    (durationMs : Nat) (error : Option Str) :
    (make_state status entries subagentEntries mcpOutcome scc sbc started
        finished durationMs error).top_skills =
      ((make_state status entries subagentEntries mcpOutcome scc sbc started
        finished durationMs error).skills.map (fun r => r.id)).take 6
    ∧ (make_state status entries subagentEntries mcpOutcome scc sbc started
        finished durationMs error).top_skills.length ≤ 6
    ∧ (∀ i ∈ (make_state status entries subagentEntries mcpOutcome scc sbc
        started finished durationMs error).top_skills,
        ∃ r ∈ (make_state status entries subagentEntries mcpOutcome scc sbc
          started finished durationMs error).skills, r.id = i)
    ∧ (make_state status entries subagentEntries mcpOutcome scc sbc started
        finished durationMs error).top_subagents =
      ((make_state status entries subagentEntries mcpOutcome scc sbc started
        finished durationMs error).subagents.map (fun r => r.id)).take 6
    ∧ (make_state status entries subagentEntries mcpOutcome scc sbc started
        finished durationMs error).top_subagents.length ≤ 6
    ∧ (∀ i ∈ (make_state status entries subagentEntries mcpOutcome scc sbc
        started finished durationMs error).top_subagents,
        ∃ r ∈ (make_state status entries subagentEntries mcpOutcome scc sbc
          started finished durationMs error).subagents, r.id = i) := by
  refine ⟨?_, ?_, ?_, ?_, ?_, ?_⟩
  · show ((entries.mergeSort _).take 6).map _ =
      (((entries.mergeSort _).map _).take 6)
    rw [List.map_take]
  · show (((entries.mergeSort _).take 6).map _).length ≤ 6
    rw [List.length_map, List.length_take]
    omega
  · intro i hi
    have hi2 : i ∈ ((entries.mergeSort (fun a b => (sort_entries a b).isLE)).take 6).map
        (fun item => item.id) := hi
    obtain ⟨r, hr, hri⟩ := List.mem_map.mp hi2
    exact ⟨r, List.take_subset 6 _ hr, hri⟩
  · show ((subagentEntries.mergeSort _).take 6).map _ =
      (((subagentEntries.mergeSort _).map _).take 6)
    rw [List.map_take]
  · show (((subagentEntries.mergeSort _).take 6).map _).length ≤ 6
    rw [List.length_map, List.length_take]
    omega
  · intro i hi
    have hi2 : i ∈ ((subagentEntries.mergeSort
        (fun a b => (sort_subagent_entries a b).isLE)).take 6).map
        (fun item => item.id) := hi
    obtain ⟨r, hr, hri⟩ := List.mem_map.mp hi2
    exact ⟨r, List.take_subset 6 _ hr, hri⟩

/-- Discovered subagent candidate (engine.rs SubagentPackage), with the
fields consulted by resolution. -/
structure SubagentPackage where
  source_root : Str
  subagent_key : Str
  name : Str
  description : Str
  canonical_path : Str
  package_hash : Str
deriving DecidableEq

/-- Embedding of SyncEngine::subagent_source_priority (engine.rs), with
the ordered subagent roots of the scope passed in. -/
def subagent_source_priority (orderedRoots : List Str)
    (package : SubagentPackage) : Nat :=
  match orderedRoots.indexOf? package.source_root with
  | some idx => idx
  | none => 2 ^ 64 - 1

/-- Comparator of the subagent election (engine.rs
resolve_subagent_scope_candidates). -/
def subagentElectCompare (orderedRoots : List Str)
    (lhs rhs : SubagentPackage) : Ordering :=
  (compare (subagent_source_priority orderedRoots lhs)
      (subagent_source_priority orderedRoots rhs)).then
    ((strCompare lhs.source_root rhs.source_root).then
      (strCompare lhs.canonical_path rhs.canonical_path))

/-- Group of subagent candidates sharing one key. -/
def subagentKeyCandidates (packages : List SubagentPackage) (key : Str) :
    List SubagentPackage :=
  packages.filter (fun p => p.subagent_key == key)

/-- Distinct-hash test of resolve_subagent_scope_candidates. -/
def subagentKeyHasConflict (packages : List SubagentPackage) (key : Str) : Bool :=
  1 < (dedupFirst ((subagentKeyCandidates packages key).map
    (fun p => p.package_hash))).length

/-- Embedding of SyncEngine::resolve_subagent_scope_candidates
(engine.rs), structured like the skill resolver with conflict kind
subagent. -/
def resolve_subagent_scope_candidates (orderedRoots : List Str) (scope : Str)
    (workspace : Option Str) (packages : List SubagentPackage) :
    List (Str × SubagentPackage) × List SyncConflict :=
  let keys := dedupFirst (packages.map (fun p => p.subagent_key))
  (keys.flatMap (fun key =>
      if subagentKeyHasConflict packages key then []
      else
        match minByFirst (subagentElectCompare orderedRoots)
            (subagentKeyCandidates packages key) with
        | some p => [(key, p)]
        | none => []),
    keys.flatMap (fun key =>
      if subagentKeyHasConflict packages key then
        [{ kind := .subagent, scope := scope, workspace := workspace,
           skill_key := key }]
      else []))

/-- Engine error (error.rs SyncEngineError), restricted to the aggregated
conflicts variant plus an opaque stand-in for the remaining variants, the
only distinction the modelled run_sync consults. -/
inductive SyncEngineError
  | conflicts (count : Nat) (conflictList : List SyncConflict)
  | other (message : Str)
deriving DecidableEq

/-- Smart constructor SyncEngineError::conflicts (error.rs): the count is
the length of the list. -/
def SyncEngineError.mkConflicts (cs : List SyncConflict) : SyncEngineError :=
  .conflicts cs.length cs

/-- Decimal rendering of a number for an error message. -/
def natToStr (n : Nat) : Str := (toString n).toList

/-- Display of the modelled error variants (error.rs thiserror
annotations). -/
def errorMessage : SyncEngineError → Str
  | .conflicts n _ =>
      "Detected ".toList ++ natToStr n ++ " skill conflict(s)".toList
  | .other message => message

/-- Per-run discovery inputs of run_core_sync (engine.rs): the candidates
of every scope together with the ordered roots used for priorities.
Discovery itself reads the filesystem and is not modelled; the claims
quantify over its possible outputs. -/
structure SyncCoreInputs where
  homeSkillRoots : List Str
  homeSubagentRoots : List Str
  globalSkillCandidates : List SkillPackage
  globalSubagentCandidates : List SubagentPackage
  workspaces : List Str
  projectSkillRootsOf : Str → List Str
  projectSubagentRootsOf : Str → List Str
  projectSkillCandidatesOf : Str → List SkillPackage
  projectSubagentCandidatesOf : Str → List SubagentPackage

/-- Listing result of a conflict-free core run (engine.rs
SyncCoreResult; the success path reports zero conflict counts). -/
structure SyncCoreResult where
  entries : List SkillRecord
  subagent_entries : List SubagentRecord
deriving DecidableEq

/-- Conflict accumulation order of run_core_sync (engine.rs): global
skills, then global subagents, then per workspace in order the workspace
skills and subagents. -/
def collect_conflicts (inp : SyncCoreInputs) : List SyncConflict :=
  (resolve_scope_candidates inp.homeSkillRoots ("global".toList) none
      inp.globalSkillCandidates).2
    ++ (resolve_subagent_scope_candidates inp.homeSubagentRoots
      ("global".toList) none inp.globalSubagentCandidates).2
    ++ inp.workspaces.flatMap (fun w =>
      (resolve_scope_candidates (inp.projectSkillRootsOf w)
          ("project".toList) (some w) (inp.projectSkillCandidatesOf w)).2
        ++ (resolve_subagent_scope_candidates (inp.projectSubagentRootsOf w)
          ("project".toList) (some w) (inp.projectSubagentCandidatesOf w)).2)

/-- Embedding of SyncEngine::run_core_sync (engine.rs) at the granularity
of the claims: every scope is discovered and resolved before anything is
mutated, and the run aborts with the aggregated conflicts error when any
scope produced a conflict.  The migration, projection, and manifest
phases operate on the filesystem and are summarised by the rest argument,
the listing a conflict-free run produces. -/
def run_core_sync (inp : SyncCoreInputs) (rest : SyncCoreResult) :
    Except SyncEngineError SyncCoreResult :=
  if collect_conflicts inp ≠ [] then
    .error (SyncEngineError.mkConflicts (collect_conflicts inp))
  else .ok rest

/-- Conflict tally of the run_sync error branch (engine.rs run_sync):
fold over the aggregated list counting skill and subagent conflicts. -/
def conflict_counts : SyncEngineError → Nat × Nat
  | .conflicts _ cs =>
      cs.foldl (fun acc item =>
        match item.kind with
        | .skill => (acc.1 + 1, acc.2)
        | .subagent => (acc.1, acc.2 + 1)) (0, 0)
  | _ => (0, 0)

/-- Embedding of SyncEngine::run_sync (engine.rs): on success build and
persist an ok snapshot from the core result; on failure build and persist
a failed snapshot derived from the previous snapshot.  The first
component is the returned value, the second the single snapshot written
to the state store by that branch. -/
def run_sync (previous : SyncState) (inp : SyncCoreInputs)
    (rest : SyncCoreResult) (mcpOutcome : McpSyncOutcome)
    (started finished : Str) (durationMs : Nat) :
    Except SyncEngineError SyncState × SyncState :=
  match run_core_sync inp rest with
  | .ok result =>
      let state := make_state .ok result.entries result.subagent_entries
        mcpOutcome 0 0 started finished durationMs none
      (.ok state, state)
  | .error e =>
      let failed := make_failed_state previous started finished durationMs
        (errorMessage e) (conflict_counts e).1 (conflict_counts e).2
      (.error e, failed)

/-- Claim C1: whenever resolution detects at least one conflict in any
scope, run_sync returns the aggregated conflicts error, and the single
snapshot it persists is a failed snapshot whose five listing fields
(skills, subagents, mcp_servers, top_skills, top_subagents) equal those
of the previous snapshot. -/
theorem run_sync_conflict_failure (previous : SyncState)
    (inp : SyncCoreInputs) (rest : SyncCoreResult)
    (mcpOutcome : McpSyncOutcome) (started finished : Str) (durationMs : Nat)
    (hconf : collect_conflicts inp ≠ []) :
    (run_sync previous inp rest mcpOutcome started finished durationMs).1 =
      .error (SyncEngineError.mkConflicts (collect_conflicts inp))
    ∧ (run_sync previous inp rest mcpOutcome started finished
        durationMs).2.sync.status = .failed
    ∧ (run_sync previous inp rest mcpOutcome started finished
        durationMs).2.skills = previous.skills
    ∧ (run_sync previous inp rest mcpOutcome started finished
        durationMs).2.subagents = previous.subagents
    ∧ (run_sync previous inp rest mcpOutcome started finished
        durationMs).2.mcp_servers = previous.mcp_servers
    ∧ (run_sync previous inp rest mcpOutcome started finished
        durationMs).2.top_skills = previous.top_skills
    ∧ (run_sync previous inp rest mcpOutcome started finished
        durationMs).2.top_subagents = previous.top_subagents := by
  have hrun : run_sync previous inp rest mcpOutcome started finished durationMs =
      (.error (SyncEngineError.mkConflicts (collect_conflicts inp)),
        make_failed_state previous started finished durationMs
          (errorMessage (SyncEngineError.mkConflicts (collect_conflicts inp)))
          (conflict_counts (SyncEngineError.mkConflicts (collect_conflicts inp))).1
          (conflict_counts (SyncEngineError.mkConflicts (collect_conflicts inp))).2) := by
    unfold run_sync run_core_sync
    rw [if_pos hconf]
  rw [hrun]
  exact ⟨rfl, rfl, rfl, rfl, rfl, rfl, rfl⟩

/-- Concrete conflicting discovery inputs for the claim C1 witness: two
global candidates of the same key with different hashes, no workspaces. -/
def exConflictInputs : SyncCoreInputs :=
  { homeSkillRoots := exGlobalSkillRoots
    homeSubagentRoots := []
    globalSkillCandidates :=
      [exPkgAgents, { exPkgClaude with package_hash := "h2".toList }]
    globalSubagentCandidates := []
    workspaces := []
    projectSkillRootsOf := fun _ => []
    projectSubagentRootsOf := fun _ => []
    projectSkillCandidatesOf := fun _ => []
    projectSubagentCandidatesOf := fun _ => [] }

/-- Concrete previous snapshot with a nonempty listing for the claim C1
witness. -/
def exPrevState : SyncState :=
  { version := 2
    generated_at := "2026-01-01T00:00:00Z".toList
    sync :=
      { status := .ok
        last_started_at := none
        last_finished_at := none
        duration_ms := none
        error := none
        warnings := [] }
    summary :=
      { global_count := 1, project_count := 0, conflict_count := 0,
        mcp_count := 0, mcp_warning_count := 0 }
    subagent_summary :=
      { global_count := 0, project_count := 0, conflict_count := 0,
        mcp_count := 0, mcp_warning_count := 0 }
    skills :=
      [{ id := "skill-0a1b2c3d4e5f".toList
         name := "alpha".toList
         scope := "global".toList
         workspace := none
         canonical_source_path := "/home/u/.claude/skills/alpha".toList
         target_paths := []
         skill_key := "alpha".toList
         status := .active }]
    subagents := []
    mcp_servers := []
    top_skills := ["skill-0a1b2c3d4e5f".toList]
    top_subagents := [] }

/-- Witness for claim C1 at the concrete conflicting inputs. -/
theorem run_sync_conflict_failure_witness :
    collect_conflicts exConflictInputs ≠ []
    ∧ ((run_sync exPrevState exConflictInputs ⟨[], []⟩ ⟨[], []⟩
          ("t0".toList) ("t1".toList) 5).1 =
        .error (SyncEngineError.mkConflicts (collect_conflicts exConflictInputs))
      ∧ (run_sync exPrevState exConflictInputs ⟨[], []⟩ ⟨[], []⟩
          ("t0".toList) ("t1".toList) 5).2.sync.status = .failed
      ∧ (run_sync exPrevState exConflictInputs ⟨[], []⟩ ⟨[], []⟩
          ("t0".toList) ("t1".toList) 5).2.skills = exPrevState.skills
      ∧ (run_sync exPrevState exConflictInputs ⟨[], []⟩ ⟨[], []⟩
          ("t0".toList) ("t1".toList) 5).2.subagents = exPrevState.subagents
      ∧ (run_sync exPrevState exConflictInputs ⟨[], []⟩ ⟨[], []⟩
          ("t0".toList) ("t1".toList) 5).2.mcp_servers = exPrevState.mcp_servers
      ∧ (run_sync exPrevState exConflictInputs ⟨[], []⟩ ⟨[], []⟩
          ("t0".toList) ("t1".toList) 5).2.top_skills = exPrevState.top_skills
      ∧ (run_sync exPrevState exConflictInputs ⟨[], []⟩ ⟨[], []⟩
          ("t0".toList) ("t1".toList) 5).2.top_subagents =
        exPrevState.top_subagents) :=
  ⟨by decide,
    run_sync_conflict_failure exPrevState exConflictInputs ⟨[], []⟩ ⟨[], []⟩
      ("t0".toList) ("t1".toList) 5 (by decide)⟩

/-- Filesystem node: a regular file, a directory, or a symlink carrying
its stored link destination. -/
inductive FsNode
  | file
  | dir
  | symlink (dest : Str)
deriving DecidableEq

/-- Filesystem model: a partial map from absolute paths to nodes. -/
abbrev Fs := Str → Option FsNode

/-- Embedding of is_symlink (engine.rs): the file type of
symlink_metadata. -/
def is_symlink (fs : Fs) (p : Str) : Bool :=
  match fs p with
  | some (.symlink _) => true
  | _ => false

/-- Embedding of path_exists_or_symlink (engine.rs).  Path::exists
follows symlinks and a dangling symlink is caught by the second
symlink_metadata disjunct, so the two cases collapse to node presence. -/
def path_exists_or_symlink (fs : Fs) (p : Str) : Bool :=
  (fs p).isSome

/-- fs remove_file: unlink one path. -/
def remove_file (fs : Fs) (p : Str) : Fs :=
  fun q => if q = p then none else fs q

/-- Embedding of SyncEngine::cleanup_stale_links (engine.rs): every path
of the previous manifest that is absent from the new managed set is
removed exactly when it currently is a symlink.  The HashSet difference
is modelled as a filtered list. -/
def cleanup_stale_links (fs : Fs) (oldLinks newLinks : List Str) : Fs :=
  (oldLinks.filter (fun p => !(newLinks.contains p))).foldl
    (fun f p => if is_symlink f p then remove_file f p else f) fs

section CleanupLemmas

lemma cleanup_foldl_not_mem (stale : List Str) :
    ∀ (fs : Fs) (q : Str), q ∉ stale →
      stale.foldl (fun f p => if is_symlink f p then remove_file f p else f) fs q
        = fs q := by
  induction stale with
  | nil => intro fs q _; rfl
  | cons p rest ih =>
    intro fs q hq
    rw [List.foldl_cons]
    have hqp : q ≠ p := fun he => hq (he ▸ List.mem_cons_self p rest)
    have hqr : q ∉ rest := fun hm => hq (List.mem_cons_of_mem p hm)
    rw [ih _ q hqr]
    by_cases hs : is_symlink fs p = true
    · rw [if_pos hs]
      unfold remove_file
      rw [if_neg hqp]
    · rw [if_neg hs]

lemma is_symlink_after_step {fs : Fs} {p q : Str} (hqp : q ≠ p) :
    is_symlink (if is_symlink fs p then remove_file fs p else fs) q
      = is_symlink fs q := by
  by_cases hs : is_symlink fs p = true
  · rw [if_pos hs]
    unfold is_symlink remove_file
    rw [if_neg hqp]
  · rw [if_neg hs]

lemma cleanup_foldl_mem (stale : List Str) :
    ∀ (fs : Fs) (q : Str), q ∈ stale →
      stale.foldl (fun f p => if is_symlink f p then remove_file f p else f) fs q
        = (if is_symlink fs q then none else fs q) := by
  induction stale with
  | nil => intro fs q hq; cases hq
  | cons p rest ih =>
    intro fs q hq
    rw [List.foldl_cons]
    by_cases hqp : q = p
    · subst hqp
      by_cases hqr : q ∈ rest
      · rw [ih _ q hqr]
        by_cases hs : is_symlink fs q = true
        · rw [if_pos hs, if_pos hs]
          have hnone : (remove_file fs q) q = none := by
            unfold remove_file
            rw [if_pos rfl]
          have : is_symlink (remove_file fs q) q = false := by
            unfold is_symlink
            rw [hnone]
          rw [this]
          simp only [Bool.false_eq_true, if_false]
          exact hnone
        · rw [if_neg hs, if_neg hs]
      · rw [cleanup_foldl_not_mem rest _ q hqr]
        by_cases hs : is_symlink fs q = true
        · rw [if_pos hs, if_pos hs]
          unfold remove_file
          rw [if_pos rfl]
        · rw [if_neg hs, if_neg hs]
    · have hqr : q ∈ rest := by
        rcases List.mem_cons.mp hq with he | hm
        · exact absurd he hqp
        · exact hm
      rw [ih _ q hqr, is_symlink_after_step hqp]
      by_cases hs : is_symlink fs q = true
      · rw [if_pos hs, if_pos hs]
      · rw [if_neg hs, if_neg hs]
        by_cases hps : is_symlink fs p = true
        · rw [if_pos hps]
          unfold remove_file
          rw [if_neg hqp]
        · rw [if_neg hps]

end CleanupLemmas

/-- Claim C6: during stale-link cleanup a path listed in the previous
managed-links manifest but absent from the new managed set is removed
exactly when it currently is a symlink; regular files, directories, and
every other path are left untouched. -/
theorem cleanup_stale_links_spec (fs : Fs) (oldLinks newLinks : List Str)
    (p : Str) :
    cleanup_stale_links fs oldLinks newLinks p =
      if p ∈ oldLinks ∧ p ∉ newLinks ∧ is_symlink fs p = true then none
      else fs p := by
  unfold cleanup_stale_links
  by_cases hstale : p ∈ oldLinks.filter (fun q => !(newLinks.contains q))
  · rw [cleanup_foldl_mem _ fs p hstale]
    obtain ⟨hold, hcond⟩ := List.mem_filter.mp hstale
    have hnew : p ∉ newLinks := by
      intro hmem
      rw [List.contains_eq_any_beq] at hcond
      simp only [Bool.not_eq_eq_eq_not, Bool.not_true, List.any_eq_false] at hcond
      exact absurd (beq_self_eq_true p) (by simpa using hcond p hmem)
    by_cases hs : is_symlink fs p = true
    · rw [if_pos hs, if_pos ⟨hold, hnew, hs⟩]
    · rw [if_neg hs, if_neg (by
        intro hcontra
        exact hs hcontra.2.2)]
  · rw [cleanup_foldl_not_mem _ fs p hstale]
    rw [if_neg ?hnot]
    case hnot =>
      rintro ⟨hold, hnew, _⟩
      refine hstale (List.mem_filter.mpr ⟨hold, ?_⟩)
      simp only [Bool.not_eq_eq_eq_not, Bool.not_true, List.contains_eq_any_beq,
        List.any_eq_false]
      intro a ha
      simp only [Bool.not_eq_true, beq_eq_false_iff_ne, ne_eq]
      intro he
      exact hnew (he ▸ ha)

/-- Absolute-path test (Path is_absolute), on rendered path strings. -/
def isAbsolutePath (p : Str) : Bool :=
  p.head? == some '/'

/-- Path::parent rendered on strings: drop the final component and its
separator.  Only used for resolving a relative link destination; the
engine paths at every call site are absolute with at least two
components. -/
def parentPath (p : Str) : Str :=
  ((p.reverse.dropWhile (fun c => !(c == '/'))).drop 1).reverse

/-- Path::join of a base with a relative component. -/
def joinPath (base rel : Str) : Str :=
  base ++ '/' :: rel

/-- Resolution of a stored link destination against the link location
(the existing_absolute computation of create_or_update_symlink,
engine.rs), with Path::new applied to the empty parent fallback. -/
def resolveLinkDest (target dest : Str) : Str :=
  if isAbsolutePath dest then dest
  else joinPath (if parentPath target = [] then ['/'] else parentPath target) dest

/-- Membership of a path in the subtree strictly below a directory
path. -/
def isUnderPath (q p : Str) : Bool :=
  decide (q.take (p.length + 1) = p ++ ['/'])

/-- Embedding of remove_path (engine.rs): a symlink or regular file is
unlinked, a directory is removed together with its subtree
(remove_dir_all).  The call sites only reach it on existing paths. -/
def remove_path (fs : Fs) (p : Str) : Fs :=
  match fs p with
  | some .dir => fun q => if q = p ∨ isUnderPath q p then none else fs q
  | _ => remove_file fs p

/-- Symlink creation (create_symlink, engine.rs): place a symlink node
storing the destination at the target path. -/
def create_symlink (fs : Fs) (destination target : Str) : Fs :=
  fun q => if q = target then some (.symlink destination) else fs q

/-- Embedding of SyncEngine::create_or_update_symlink (engine.rs).  A
symlink already resolving to the destination is left untouched; anything
else occupying the target, a foreign symlink, a regular file, or a
directory, is removed and replaced by a fresh symlink.  Parent directory
creation is not modelled; canonicalize is the identity. -/
def create_or_update_symlink (fs : Fs) (target destination : Str) : Fs :=
  if path_exists_or_symlink fs target then
    match fs target with
    | some (.symlink d) =>
        if resolveLinkDest target d = destination then fs
        else create_symlink (remove_path fs target) destination target
    | _ => create_symlink (remove_path fs target) destination target
  else create_symlink fs destination target

/-- Concrete mirror target path for the claim C3 record. -/
def exTargetPath : Str := "/home/u/.agents/skills/alpha".toList

/-- Concrete canonical path for the claim C3 record. -/
def exCanonicalPath : Str := "/home/u/.claude/skills/alpha".toList

/-- Concrete filesystem holding a user-owned regular file at the expected
mirror location. -/
def exMirrorFs : Fs :=
  fun q => if q = exTargetPath then some .file else none

/-- Counterexample to claim C3 as stated: a pre-existing regular file at
an expected mirror location is not preserved, the projector removes it
and installs the managed symlink in its place (and create_or_update_symlink
offers no warning channel: its only outcomes are filesystem mutation or an
io error). -/
theorem create_or_update_symlink_replaces_file_counterexample :
    exMirrorFs exTargetPath = some .file
    ∧ create_or_update_symlink exMirrorFs exTargetPath exCanonicalPath
        exTargetPath = some (.symlink exCanonicalPath)
    ∧ create_or_update_symlink exMirrorFs exTargetPath exCanonicalPath
        exTargetPath ≠ exMirrorFs exTargetPath := by
  refine ⟨by decide, by decide, by decide⟩

/-- Claim C3 amended: during link projection an expected mirror location
occupied by a pre-existing regular file or directory that the engine does
not manage is removed and replaced by the managed symlink to the
canonical path; no warning-class outcome exists on this path. -/
theorem create_or_update_symlink_replaces_occupant (fs : Fs)
    (target destination : Str)
    (hocc : fs target = some .file ∨ fs target = some .dir) :
    create_or_update_symlink fs target destination target =
      some (.symlink destination) := by
  unfold create_or_update_symlink
  have hexists : path_exists_or_symlink fs target = true := by
    unfold path_exists_or_symlink
    rcases hocc with h | h <;> rw [h] <;> rfl
  rw [if_pos hexists]
  rcases hocc with h | h <;> rw [h] <;> exact if_pos rfl

/-- Witness for the amended claim C3 at the concrete filesystem. -/
theorem create_or_update_symlink_replaces_occupant_witness :
    (exMirrorFs exTargetPath = some .file ∨ exMirrorFs exTargetPath = some .dir)
    ∧ create_or_update_symlink exMirrorFs exTargetPath exCanonicalPath
        exTargetPath = some (.symlink exCanonicalPath) :=
  ⟨Or.inl (by decide),
    create_or_update_symlink_replaces_occupant exMirrorFs exTargetPath
      exCanonicalPath (Or.inl (by decide))⟩

/-- UI slice of the preferences document (settings.rs AppUiState),
restricted to the starred ids. -/
structure AppUiState where
  starred_skill_ids : List Str
deriving DecidableEq

/-- Preferences document (settings.rs SyncAppSettings), restricted to the
field the starred-skill paths consult. -/
structure SyncAppSettings where
  ui_state : Option AppUiState
deriving DecidableEq

/-- Stored starred list of a preferences document (empty when the ui
state is absent). -/
def storedStarred (settings : SyncAppSettings) : List Str :=
  (settings.ui_state.map (fun ui => ui.starred_skill_ids)).getD []

/-- Embedding of SyncEngine::sanitize_starred_skill_ids (engine.rs): keep
the stored ids that belong to a snapshot skill, first occurrence only, in
order.  The accumulated list doubles as the seen set, since ids are
pushed exactly when inserted into it. -/
def sanitize_starred_skill_ids (state : SyncState)
    (settings : SyncAppSettings) : List Str :=
  (storedStarred settings).foldl
    (fun acc idv =>
      if !(state.skills.any (fun skill => skill.id == idv)) then acc
      else if idv ∈ acc then acc
      else acc ++ [idv])
    []

/-- Embedding of save_starred_skill_ids (engine.rs): replace the starred
list inside the ui state, inserting a default ui state when absent. -/
def save_starred_skill_ids (settings : SyncAppSettings)
    (starred : List Str) : SyncAppSettings :=
  { settings with ui_state := some { starred_skill_ids := starred } }

/-- Paired persistent stores of the engine: the snapshot held by the
state store and the preferences document. -/
structure EngineStores where
  state : SyncState
  settings : SyncAppSettings

/-- Toggled starred list of set_skill_starred (engine.rs): append the id
to the sanitized list when starring and it is absent, remove it when
unstarring. -/
def starredNext (stores : EngineStores) (skillId : Str) (starred : Bool) :
    List Str :=
  if starred then
    if (sanitize_starred_skill_ids stores.state stores.settings).any
        (fun idv => idv == skillId) then
      sanitize_starred_skill_ids stores.state stores.settings
    else sanitize_starred_skill_ids stores.state stores.settings ++ [skillId]
  else
    (sanitize_starred_skill_ids stores.state stores.settings).filter
      (fun idv => !(idv == skillId))

/-- Embedding of SyncEngine::set_skill_starred (engine.rs): an unknown id
returns the sanitized list and writes nothing; a known id is appended to
or removed from the sanitized list, which is persisted to the
preferences and returned. -/
def set_skill_starred (stores : EngineStores) (skillId : Str)
    (starred : Bool) : List Str × EngineStores :=
  if !(stores.state.skills.any (fun skill => skill.id == skillId)) then
    (sanitize_starred_skill_ids stores.state stores.settings, stores)
  else
    (starredNext stores skillId starred,
      { stores with
        settings :=
          save_starred_skill_ids stores.settings
            (starredNext stores skillId starred) })

section StarredLemmas

lemma contains_iff_mem {l : List Str} {x : Str} :
    l.contains x = true ↔ x ∈ l := by
  rw [List.contains_eq_any_beq, List.any_eq_true]
  constructor
  · rintro ⟨b, hb, he⟩
    rw [beq_iff_eq] at he
    exact he ▸ hb
  · intro hx
    exact ⟨x, hx, beq_self_eq_true x⟩

lemma sanitize_foldl_eq_dedup_filter (allowed : Str → Bool) :
    ∀ (l acc : List Str),
      l.foldl (fun acc idv =>
        if !(allowed idv) then acc
        else if idv ∈ acc then acc
        else acc ++ [idv]) acc
      = (l.filter allowed).foldl
          (fun acc x => if x ∈ acc then acc else acc ++ [x]) acc := by
  intro l
  induction l with
  | nil => intro acc; rfl
  | cons a rest ih =>
    intro acc
    rw [List.foldl_cons, List.filter_cons]
    by_cases ha : allowed a = true
    · simp only [ha, Bool.not_true, Bool.false_eq_true, if_false, if_true,
        List.foldl_cons]
      exact ih _
    · have ha2 : allowed a = false := by
        rwa [Bool.not_eq_true] at ha
      simp only [ha2, Bool.not_false, Bool.false_eq_true, if_false, if_true,
        List.foldl_cons]
      exact ih acc

lemma dedup_foldl_filter_comm (p : Str → Bool) :
    ∀ (l acc : List Str),
      (l.filter p).foldl (fun acc x => if x ∈ acc then acc else acc ++ [x])
          (acc.filter p)
        = ((l.foldl (fun acc x => if x ∈ acc then acc else acc ++ [x]) acc).filter p) := by
  intro l
  induction l with
  | nil => intro acc; rfl
  | cons a rest ih =>
    intro acc
    rw [List.filter_cons, List.foldl_cons]
    by_cases ha : p a = true
    · rw [if_pos ha, List.foldl_cons]
      by_cases hmem : a ∈ acc
      · have hmemf : a ∈ acc.filter p := List.mem_filter.mpr ⟨hmem, ha⟩
        rw [if_pos hmemf, if_pos hmem]
        exact ih acc
      · have hmemf : a ∉ acc.filter p := fun hc => hmem (List.mem_filter.mp hc).1
        rw [if_neg hmemf, if_neg hmem]
        have hstep : acc.filter p ++ [a] = (acc ++ [a]).filter p := by
          rw [List.filter_append, List.filter_cons]
          rw [if_pos ha]
          rfl
        rw [hstep]
        exact ih (acc ++ [a])
    · rw [if_neg (by simp [ha])]
      by_cases hmem : a ∈ acc
      · rw [if_pos hmem]
        exact ih acc
      · rw [if_neg hmem]
        have hstep : acc.filter p = (acc ++ [a]).filter p := by
          rw [List.filter_append, List.filter_cons]
          rw [if_neg (by simp [ha]), List.filter_nil, List.append_nil]
        rw [hstep]
        exact ih (acc ++ [a])

lemma sanitize_eq_dedup_filter (state : SyncState) (settings : SyncAppSettings) :
    sanitize_starred_skill_ids state settings =
      (dedupFirst (storedStarred settings)).filter
        (fun idv => state.skills.any (fun skill => skill.id == idv)) := by
  unfold sanitize_starred_skill_ids dedupFirst
  rw [sanitize_foldl_eq_dedup_filter]
  have := dedup_foldl_filter_comm
    (fun idv => state.skills.any (fun skill => skill.id == idv))
    (storedStarred settings) []
  rw [List.filter_nil] at this
  exact this

lemma sanitize_mem_allowed {state : SyncState} {settings : SyncAppSettings}
    {x : Str} (hx : x ∈ sanitize_starred_skill_ids state settings) :
    state.skills.any (fun skill => skill.id == x) = true := by
  rw [sanitize_eq_dedup_filter] at hx
  exact (List.mem_filter.mp hx).2

lemma sanitize_mem_stored {state : SyncState} {settings : SyncAppSettings}
    {x : Str} (hx : x ∈ sanitize_starred_skill_ids state settings) :
    x ∈ storedStarred settings := by
  rw [sanitize_eq_dedup_filter] at hx
  exact mem_dedupFirst.mp (List.mem_filter.mp hx).1

lemma sanitize_nodup (state : SyncState) (settings : SyncAppSettings) :
    (sanitize_starred_skill_ids state settings).Nodup := by
  rw [sanitize_eq_dedup_filter]
  exact (nodup_dedupFirst _).filter _

lemma sanitize_sublist_dedup (state : SyncState) (settings : SyncAppSettings) :
    (sanitize_starred_skill_ids state settings).Sublist
      (dedupFirst (storedStarred settings)) := by
  rw [sanitize_eq_dedup_filter]
  exact List.filter_sublist _

lemma any_id_exists {skills : List SkillRecord} {x : Str}
    (h : skills.any (fun skill => skill.id == x) = true) :
    ∃ r ∈ skills, r.id = x := by
  obtain ⟨r, hr, he⟩ := List.any_eq_true.mp h
  exact ⟨r, hr, beq_iff_eq.mp he⟩

end StarredLemmas

/-- Claim C8: for every skill id and flag, set_skill_starred returns a
list whose every element is the id of a snapshot skill, without
duplicates, whose restriction to the ids stored in the preferences is a
subsequence of their first-occurrence order; and only the preferences
store changes, the snapshot is untouched. -/
theorem set_skill_starred_spec (stores : EngineStores) (skillId : Str)
    (starred : Bool) :
    (∀ x ∈ (set_skill_starred stores skillId starred).1,
        ∃ r ∈ stores.state.skills, r.id = x)
    ∧ (set_skill_starred stores skillId starred).1.Nodup
    ∧ ((set_skill_starred stores skillId starred).1.filter
          (fun x => (storedStarred stores.settings).contains x)).Sublist
        (dedupFirst (storedStarred stores.settings))
    ∧ (set_skill_starred stores skillId starred).2.state = stores.state := by
  unfold set_skill_starred
  by_cases hknown : stores.state.skills.any (fun skill => skill.id == skillId) = true
  · rw [if_neg (by rw [hknown]; simp)]
    unfold starredNext
    by_cases hstar : starred = true
    · rw [if_pos hstar]
      by_cases hin : (sanitize_starred_skill_ids stores.state stores.settings).any
          (fun idv => idv == skillId) = true
      · rw [if_pos hin]
        refine ⟨?_, sanitize_nodup _ _, ?_, rfl⟩
        · intro x hx
          exact any_id_exists (sanitize_mem_allowed hx)
        · rw [filter_eq_self_of_forall (fun x hx =>
            contains_iff_mem.mpr (sanitize_mem_stored hx))]
          exact sanitize_sublist_dedup _ _
      · rw [if_neg hin]
        have hnotin : skillId ∉ sanitize_starred_skill_ids stores.state stores.settings := by
          intro hc
          exact hin (List.any_eq_true.mpr ⟨skillId, hc, beq_self_eq_true _⟩)
        refine ⟨?_, ?_, ?_, rfl⟩
        · intro x hx
          rcases List.mem_append.mp hx with hx | hx
          · exact any_id_exists (sanitize_mem_allowed hx)
          · rcases List.mem_singleton.mp hx with rfl
            exact any_id_exists hknown
        · rw [List.nodup_append]
          exact ⟨sanitize_nodup _ _, List.nodup_singleton _, by
            intro a ha hb
            rcases List.mem_singleton.mp hb with rfl
            exact hnotin ha⟩
        · have hidns : skillId ∉ storedStarred stores.settings := by
            intro hstored
            refine hnotin ?_
            rw [sanitize_eq_dedup_filter]
            exact List.mem_filter.mpr ⟨mem_dedupFirst.mpr hstored, hknown⟩
          rw [List.filter_append]
          have hlast : ([skillId].filter
              (fun x => (storedStarred stores.settings).contains x)) = [] := by
            apply filter_eq_nil_of_forall
            intro b hb
            rcases List.mem_singleton.mp hb with rfl
            rw [Bool.eq_false_iff]
            intro hc
            exact hidns (contains_iff_mem.mp hc)
          rw [hlast, List.append_nil,
            filter_eq_self_of_forall (fun x hx =>
              contains_iff_mem.mpr (sanitize_mem_stored hx))]
          exact sanitize_sublist_dedup _ _
    · rw [if_neg hstar]
      refine ⟨?_, ?_, ?_, rfl⟩
      · intro x hx
        exact any_id_exists (sanitize_mem_allowed (List.mem_filter.mp hx).1)
      · exact (sanitize_nodup _ _).filter _
      · rw [filter_eq_self_of_forall (fun x hx =>
          contains_iff_mem.mpr (sanitize_mem_stored (List.mem_filter.mp hx).1))]
        exact ((List.filter_sublist _).trans (sanitize_sublist_dedup _ _))
  · rw [if_pos (by simp [hknown])]
    refine ⟨?_, sanitize_nodup _ _, ?_, rfl⟩
    · intro x hx
      exact any_id_exists (sanitize_mem_allowed hx)
    · rw [filter_eq_self_of_forall (fun x hx =>
        contains_iff_mem.mpr (sanitize_mem_stored hx))]
      exact sanitize_sublist_dedup _ _

/-- Rust str::replace of CRLF with LF, scanning left to right. -/
def replaceCrlf : Str → Str
  | [] => []
  | '\r' :: '\n' :: rest => '\n' :: replaceCrlf rest
  | c :: rest => c :: replaceCrlf rest

/-- First index at which a pattern occurs in a string (str find), if
any. -/
def findSub (s pat : Str) : Option Nat :=
  (List.range (s.length + 1)).find?
    (fun i => decide ((s.drop i).take pat.length = pat))

/-- Generic split on a separator character, keeping empty segments. -/
def splitOn (sep : Char) : Str → List Str
  | [] => [[]]
  | c :: rest =>
    if c = sep then [] :: splitOn sep rest
    else
      match splitOn sep rest with
      | [] => [[c]]
      | l :: ls => (c :: l) :: ls

/-- Rust str::lines on CRLF-normalized text: split on newline and drop
one trailing empty segment. -/
def rustLines (s : Str) : List Str :=
  match (splitOn '\n' s).getLast? with
  | some [] => (splitOn '\n' s).dropLast
  | _ => splitOn '\n' s

/-- Rust str::split_once at the first colon. -/
def splitOnceColon : Str → Option (Str × Str)
  | [] => none
  | c :: rest =>
    if c = ':' then some ([], rest)
    else (splitOnceColon rest).map (fun pr => (c :: pr.1, pr.2))

/-- Front-matter value cleanup of parse_subagent_markdown (engine.rs):
trim whitespace, strip double quotes, strip single quotes. -/
def cleanFmValue (value : Str) : Str :=
  trimMatches '\'' (trimMatches '"' (trimWs value))

/-- Parsed front-matter accumulator of parse_subagent_markdown
(engine.rs locals name, description, model, tools). -/
structure SubagentFmAcc where
  name : Option Str
  description : Option Str
  model : Option Str
  tools : List Str
deriving DecidableEq

/-- Bracket test of the tools branch (starts_with left bracket and
ends_with right bracket). -/
def isBracketed (value : Str) : Bool :=
  (value.head? == some '[') && (value.getLast? == some ']')

/-- Comma-separated tools parsing (both branches of the tools key share
it): split on commas, clean every item, keep the nonempty tokens. -/
def parseToolItems (inner : Str) : List Str :=
  (splitOn ',' inner).foldl
    (fun acc item =>
      if cleanFmValue item = [] then acc else acc ++ [cleanFmValue item])
    []

/-- One line of the front-matter loop of parse_subagent_markdown
(engine.rs): skip blanks and lines without a colon, otherwise dispatch on
the trimmed key. -/
def parseFmLine (acc : SubagentFmAcc) (line : Str) : SubagentFmAcc :=
  if trimWs line = [] then acc
  else
    match splitOnceColon (trimWs line) with
    | none => acc
    | some (keyRaw, valueRaw) =>
      if trimWs keyRaw = "name".toList then
        { acc with name := some (cleanFmValue valueRaw) }
      else if trimWs keyRaw = "description".toList then
        { acc with description := some (cleanFmValue valueRaw) }
      else if trimWs keyRaw = "model".toList then
        { acc with model := some (cleanFmValue valueRaw) }
      else if trimWs keyRaw = "tools".toList then
        if isBracketed (trimWs (cleanFmValue valueRaw)) then
          { acc with tools := acc.tools
              ++ parseToolItems ((trimWs (cleanFmValue valueRaw)).drop 1).dropLast }
        else if trimWs (cleanFmValue valueRaw) ≠ [] then
          { acc with tools := acc.tools
              ++ parseToolItems (trimWs (cleanFmValue valueRaw)) }
        else acc
      else acc

/-- Front-matter fold of parse_subagent_markdown. -/
def subagentFmAccOf (frontmatter : Str) : SubagentFmAcc :=
  (rustLines frontmatter).foldl parseFmLine ⟨none, none, none, []⟩

/-- Embedding of is_valid_subagent_key (engine.rs): first character an
ASCII lower letter or digit, the rest also admitting dash and
underscore. -/
def is_valid_subagent_key (value : Str) : Bool :=
  match value with
  | [] => false
  | first :: rest =>
    isAsciiLowerOrDigit first
      && rest.all (fun ch => isAsciiLowerOrDigit ch || ch == '-' || ch == '_')

/-- Parsed subagent file (engine.rs ParsedSubagent). -/
structure ParsedSubagent where
  name : Str
  description : Str
  model : Option Str
  tools : List Str
  body : Str
deriving DecidableEq

/-- Final assembly of parse_subagent_markdown (engine.rs): name and
description must both be present, the name must be a valid subagent key,
and a blank model collapses to none.  The description is not inspected
beyond presence. -/
def buildParsed (acc : SubagentFmAcc) (body : Str) : Option ParsedSubagent :=
  match acc.name, acc.description with
  | some name, some description =>
      if is_valid_subagent_key name then
        some { name := name
               description := description
               model :=
                 match acc.model with
                 | some m => if trimWs m = [] then none else some m
                 | none => none
               tools := acc.tools
               body := body }
      else none
  | _, _ => none

/-- Embedding of parse_subagent_markdown (engine.rs): CRLF-normalize,
require the front-matter opening, locate the closing delimiter, fold the
front-matter lines, and assemble. -/
def parse_subagent_markdown (raw : Str) : Option ParsedSubagent :=
  if (replaceCrlf raw).take 4 = "---\n".toList then
    match findSub ((replaceCrlf raw).drop 4) ("\n---".toList) with
    | none => none
    | some fmEnd =>
        buildParsed
          (subagentFmAccOf (((replaceCrlf raw).drop 4).take fmEnd))
          (trimWs (((replaceCrlf raw).drop 4).drop (fmEnd + 4)))
  else none

/-- Embedding of is_protected_skill_key (engine.rs) with the fixed
protected segment set of the engine. -/
def is_protected_skill_key (key : Str) : Bool :=
  (splitOn '/' key).any (fun segment => segment == ".system".toList)

/-- Per-file acceptance decision of discover_subagent_files (engine.rs)
for one markdown file: the key (trimmed filename stem) must be nonempty
and unprotected, the file must parse, and the parsed name must equal the
key.  The extension test and the cross-file first-wins deduplication sit
outside this predicate. -/
def subagent_candidate_accepted (stem raw : Str) : Bool :=
  if trimWs stem = [] then false
  else if is_protected_skill_key (trimWs stem) then false
  else
    match parse_subagent_markdown raw with
    | none => false
    | some parsed => parsed.name == trimWs stem

/-- Concrete filename stem for the claim C5 counterexample. -/
def exSubagentStem : Str := "helper".toList

/-- Concrete subagent file whose front-matter description line is
present but empty. -/
def exSubagentRaw : Str :=
  "---\nname: helper\ndescription:\n---\nBody text".toList

/-- Counterexample to claim C5 as stated: a markdown file whose
front-matter description field is empty is still emitted as a candidate;
discovery only requires the field to be present. -/
theorem subagent_empty_description_accepted :
    subagent_candidate_accepted exSubagentStem exSubagentRaw = true
    ∧ parse_subagent_markdown exSubagentRaw =
        some { name := "helper".toList
               description := []
               model := none
               tools := []
               body := "Body text".toList } := by
  constructor
  · decide
  · decide

lemma buildParsed_some_valid {acc : SubagentFmAcc} {body : Str}
    {p : ParsedSubagent} (h : buildParsed acc body = some p) :
    is_valid_subagent_key p.name = true ∧ acc.description = some p.description := by
  unfold buildParsed at h
  rcases hn : acc.name with _ | name <;> rw [hn] at h
  · cases h
  · rcases hd : acc.description with _ | description <;> rw [hd] at h
    · cases h
    · dsimp only at h
      by_cases hv : is_valid_subagent_key name = true
      · rw [if_pos hv] at h
        injection h with h
        subst h
        exact ⟨hv, rfl⟩
      · rw [if_neg hv] at h
        cases h

lemma parse_some_valid_name {raw : Str} {p : ParsedSubagent}
    (h : parse_subagent_markdown raw = some p) :
    is_valid_subagent_key p.name = true := by
  unfold parse_subagent_markdown at h
  by_cases h4 : (replaceCrlf raw).take 4 = "---\n".toList
  · rw [if_pos h4] at h
    rcases hf : findSub ((replaceCrlf raw).drop 4) ("\n---".toList) with _ | fmEnd <;>
      rw [hf] at h
    · cases h
    · exact (buildParsed_some_valid h).1
  · rw [if_neg h4] at h
    cases h

/-- Claim C5 amended: a markdown file is emitted as a subagent candidate
only if its trimmed stem is nonempty and unprotected, its front matter
parses with both name and description fields present, and the parsed
name equals the trimmed stem and is a valid subagent key.  The
description may be empty; no non-emptiness is required. -/
theorem subagent_candidate_accepted_spec (stem raw : Str)
    (hacc : subagent_candidate_accepted stem raw = true) :
    trimWs stem ≠ []
    ∧ is_protected_skill_key (trimWs stem) = false
    ∧ ∃ parsed, parse_subagent_markdown raw = some parsed
        ∧ parsed.name = trimWs stem
        ∧ is_valid_subagent_key parsed.name = true := by
  unfold subagent_candidate_accepted at hacc
  by_cases hempty : trimWs stem = []
  · rw [if_pos hempty] at hacc
    cases hacc
  · rw [if_neg hempty] at hacc
    by_cases hprot : is_protected_skill_key (trimWs stem) = true
    · rw [if_pos hprot] at hacc
      cases hacc
    · rw [if_neg hprot] at hacc
      have hprotf : is_protected_skill_key (trimWs stem) = false := by
        rw [Bool.eq_false_iff]
        exact hprot
      rcases hp : parse_subagent_markdown raw with _ | parsed <;>
        rw [hp] at hacc <;> dsimp only at hacc
      · cases hacc
      · exact ⟨hempty, hprotf, parsed, rfl, beq_iff_eq.mp hacc,
          parse_some_valid_name hp⟩

/-- Witness for the amended claim C5 at the concrete accepted file. -/
theorem subagent_candidate_accepted_spec_witness :
    subagent_candidate_accepted exSubagentStem exSubagentRaw = true
    ∧ (trimWs exSubagentStem ≠ []
      ∧ is_protected_skill_key (trimWs exSubagentStem) = false
      ∧ ∃ parsed, parse_subagent_markdown exSubagentRaw = some parsed
          ∧ parsed.name = trimWs exSubagentStem
          ∧ is_valid_subagent_key parsed.name = true) :=
  ⟨by decide,
    subagent_candidate_accepted_spec exSubagentStem exSubagentRaw (by decide)⟩

section TrimNewlineLemmas

lemma head_not_of_dropEdge_fix {c a : Char} {t : Str}
    (h : dropEdge c (a :: t) = a :: t) : (a == c) = false := by
  rcases hac : (a == c) with _ | _
  · rfl
  · exfalso
    unfold dropEdge at h
    rw [List.dropWhile_cons, if_pos hac] at h
    have hlen := (List.dropWhile_sublist (l := t) (fun x => x == c)).length_le
    rw [h] at hlen
    simp at hlen

lemma dropEdge_trimMatches (c : Char) (s : Str) :
    dropEdge c (trimMatches c s) = trimMatches c s := by
  unfold trimMatches
  obtain ⟨t, ht⟩ := dropEnd_append c (dropEdge c s)
  exact dropEdge_of_decomp (dropEdge_idem c s) ht

lemma dropEnd_trimMatches (c : Char) (s : Str) :
    dropEnd c (trimMatches c s) = trimMatches c s := by
  unfold trimMatches
  exact dropEnd_idem c (dropEdge c s)

lemma dropWhile_append_all {p : Char → Bool} {xs : Str} (ys : Str)
    (h : ∀ x ∈ xs, p x = true) :
    (xs ++ ys).dropWhile p = ys.dropWhile p := by
  induction xs with
  | nil => rfl
  | cons a t ih =>
    rw [List.cons_append, List.dropWhile_cons, if_pos (h a (List.mem_cons_self a t))]
    exact ih (fun x hx => h x (List.mem_cons_of_mem a hx))

lemma trimMatches_append_all {c : Char} {u l : Str}
    (h1 : dropEdge c u = u) (h2 : dropEnd c u = u)
    (hl : ∀ x ∈ l, (x == c) = true) :
    trimMatches c (u ++ l) = u := by
  cases u with
  | nil =>
    rw [List.nil_append]
    unfold trimMatches dropEdge
    have : l.dropWhile (fun a => a == c) = [] := by
      have := dropWhile_append_all (p := fun a => a == c) [] hl
      rw [List.append_nil] at this
      rw [this]
      rfl
    rw [this]
    rfl
  | cons a t =>
    have hhead := head_not_of_dropEdge_fix h1
    have hfix : dropEdge c ((a :: t) ++ l) = (a :: t) ++ l := by
      unfold dropEdge
      rw [List.cons_append, List.dropWhile_cons, if_neg (by rw [hhead]; simp)]
    unfold trimMatches
    rw [hfix]
    unfold dropEnd
    rw [List.reverse_append,
      dropWhile_append_all _ (fun x hx => hl x (List.mem_reverse.mp hx))]
    unfold dropEnd at h2
    rw [show ((a :: t).reverse.dropWhile (fun x => x == c)).reverse = a :: t from h2]

lemma trimMatches_cons_self (c : Char) (t : Str) :
    trimMatches c (c :: t) = trimMatches c t := by
  unfold trimMatches dropEdge
  rw [List.dropWhile_cons, if_pos (beq_self_eq_true c)]

end TrimNewlineLemmas

/-- Begin marker of the central catalog managed block (mcp_registry.rs
CENTRAL_BEGIN). -/
def CENTRAL_BEGIN : Str := "# skills-sync:mcp:begin".toList

/-- End marker of the central catalog managed block (mcp_registry.rs
CENTRAL_END). -/
def CENTRAL_END : Str := "# skills-sync:mcp:end".toList

/-- Append path of upsert_managed_block (mcp_registry.rs): no markers in
the host text, so trim its edge newlines and append the block after a
blank line. -/
def upsertAppend (normalized block : Str) : Str :=
  trimMatches '\n' normalized ++ '\n' :: '\n' :: block ++ ['\n']

/-- Replacement path of upsert_managed_block (mcp_registry.rs): rebuild
the file from the newline-trimmed text before the begin marker, the
fresh block, and the newline-trimmed text after the end marker, joined
with blank lines and a trailing newline. -/
def upsertReplace (normalized : Str) (beginIdx endAbsolute : Nat)
    (block : Str) : Str :=
  if trimMatches '\n' (normalized.take beginIdx) = [] then
    if trimMatches '\n' (normalized.drop endAbsolute) = [] then block ++ ['\n']
    else block ++ '\n' :: '\n' :: trimMatches '\n' (normalized.drop endAbsolute) ++ ['\n']
  else
    if trimMatches '\n' (normalized.drop endAbsolute) = [] then
      trimMatches '\n' (normalized.take beginIdx) ++ '\n' :: '\n' :: block ++ ['\n']
    else
      trimMatches '\n' (normalized.take beginIdx) ++ '\n' :: '\n' :: block
        ++ '\n' :: '\n' :: trimMatches '\n' (normalized.drop endAbsolute) ++ ['\n']

/-- Embedding of upsert_managed_block (mcp_registry.rs): a blank host
becomes the block alone; a host with both markers has the marker span
replaced; otherwise the block is appended. -/
def upsert_managed_block (current beginMarker endMarker body : Str) : Str :=
  if trimWs current = [] then
    (beginMarker ++ '\n' :: body ++ '\n' :: endMarker) ++ ['\n']
  else
    match findSub (replaceCrlf current) beginMarker with
    | some beginIdx =>
      match findSub ((replaceCrlf current).drop beginIdx) endMarker with
      | some endIdx =>
          upsertReplace (replaceCrlf current) beginIdx
            (beginIdx + endIdx + endMarker.length)
            (beginMarker ++ '\n' :: body ++ '\n' :: endMarker)
      | none =>
          upsertAppend (replaceCrlf current)
            (beginMarker ++ '\n' :: body ++ '\n' :: endMarker)
    | none =>
        upsertAppend (replaceCrlf current)
          (beginMarker ++ '\n' :: body ++ '\n' :: endMarker)

/-- Write decision of write_central_catalog (mcp_registry.rs): none when
the upserted content equals the existing content, in which case the file
is not rewritten; otherwise the content to write. -/
def write_central_catalog_update (existing block : Str) : Option Str :=
  if upsert_managed_block existing CENTRAL_BEGIN CENTRAL_END block = existing then
    none
  else some (upsert_managed_block existing CENTRAL_BEGIN CENTRAL_END block)

/-- Concrete outside prefix of the claim C4 host file: user content
followed by two blank lines. -/
def exHostPre : Str := "a = 1\n\n\n".toList

/-- Concrete outside suffix of the claim C4 host file. -/
def exHostSuf : Str := "\n".toList

/-- Concrete central-catalog host file with a managed block between the
outside regions. -/
def exHostToml : Str :=
  exHostPre ++ CENTRAL_BEGIN ++ '\n' :: "old = true".toList
    ++ '\n' :: CENTRAL_END ++ exHostSuf

/-- Counterexample to claim C4 as stated: the bytes outside the marker
lines are not preserved byte-for-byte.  Regenerating the block of this
host collapses the blank lines before the begin marker, so the output
differs from the byte-preserving rewrite of the same host. -/
theorem upsert_outside_bytes_not_preserved :
    exHostToml = exHostPre ++ CENTRAL_BEGIN ++ '\n' :: "old = true".toList
        ++ '\n' :: CENTRAL_END ++ exHostSuf
    ∧ upsert_managed_block exHostToml CENTRAL_BEGIN CENTRAL_END
        ("new = true".toList)
      ≠ exHostPre ++ CENTRAL_BEGIN ++ '\n' :: "new = true".toList
          ++ '\n' :: CENTRAL_END ++ exHostSuf
    ∧ upsert_managed_block exHostToml CENTRAL_BEGIN CENTRAL_END
        ("new = true".toList)
      = "a = 1\n\n".toList ++ CENTRAL_BEGIN ++ '\n' :: "new = true".toList
          ++ '\n' :: CENTRAL_END ++ "\n".toList := by
  refine ⟨rfl, by decide, by decide⟩

/-- Claim C4 amended: for a host whose markers are both found, the upsert
output decomposes into a prefix, the regenerated block, and a suffix, and
the outside text is preserved only up to CRLF normalization and trimming
of the newline runs adjacent to the block (the regions are rejoined with
blank lines); exact byte preservation does not hold.  When the computed
updated content equals the existing content, the central-catalog writer
does not rewrite the file. -/
theorem upsert_managed_block_spec (current beginMarker endMarker body : Str)
    (beginIdx endIdx : Nat) (hne : trimWs current ≠ [])
    (hbegin : findSub (replaceCrlf current) beginMarker = some beginIdx)
    (hend : findSub ((replaceCrlf current).drop beginIdx) endMarker = some endIdx) :
    (∃ p s, upsert_managed_block current beginMarker endMarker body =
        p ++ beginMarker ++ '\n' :: body ++ '\n' :: endMarker ++ s
      ∧ trimMatches '\n' p =
          trimMatches '\n' ((replaceCrlf current).take beginIdx)
      ∧ trimMatches '\n' s =
          trimMatches '\n' ((replaceCrlf current).drop
            (beginIdx + endIdx + endMarker.length)))
    ∧ (∀ existing block2,
        upsert_managed_block existing CENTRAL_BEGIN CENTRAL_END block2 = existing →
        write_central_catalog_update existing block2 = none) := by
  constructor
  · have hup : upsert_managed_block current beginMarker endMarker body =
        upsertReplace (replaceCrlf current) beginIdx
          (beginIdx + endIdx + endMarker.length)
          (beginMarker ++ '\n' :: body ++ '\n' :: endMarker) := by
      unfold upsert_managed_block
      rw [if_neg hne, hbegin]
      dsimp only
      rw [hend]
    rw [hup]
    unfold upsertReplace
    by_cases hTP : trimMatches '\n'
        ((replaceCrlf current).take beginIdx) = []
    · rw [if_pos hTP]
      by_cases hTS : trimMatches '\n'
          ((replaceCrlf current).drop (beginIdx + endIdx + endMarker.length)) = []
      · rw [if_pos hTS]
        refine ⟨[], ['\n'], ?_, ?_, ?_⟩
        · simp [List.append_assoc]
        · rw [hTP]
          rfl
        · rw [hTS]
          rfl
      · rw [if_neg hTS]
        refine ⟨[], '\n' :: '\n' :: (trimMatches '\n'
          ((replaceCrlf current).drop (beginIdx + endIdx + endMarker.length))
            ++ ['\n']), ?_, ?_, ?_⟩
        · simp [List.append_assoc]
        · rw [hTP]
          rfl
        · rw [trimMatches_cons_self, trimMatches_cons_self]
          exact trimMatches_append_all (dropEdge_trimMatches _ _)
            (dropEnd_trimMatches _ _)
            (fun x hx => by
              rcases List.mem_singleton.mp hx with rfl
              rfl)
    · rw [if_neg hTP]
      by_cases hTS : trimMatches '\n'
          ((replaceCrlf current).drop (beginIdx + endIdx + endMarker.length)) = []
      · rw [if_pos hTS]
        refine ⟨trimMatches '\n' ((replaceCrlf current).take beginIdx)
          ++ ['\n', '\n'], ['\n'], ?_, ?_, ?_⟩
        · simp [List.append_assoc]
        · exact trimMatches_append_all (dropEdge_trimMatches _ _)
            (dropEnd_trimMatches _ _)
            (fun x hx => by
              rcases List.mem_cons.mp hx with rfl | hx
              · rfl
              · rcases List.mem_singleton.mp hx with rfl
                rfl)
        · rw [hTS]
          rfl
      · rw [if_neg hTS]
        refine ⟨trimMatches '\n' ((replaceCrlf current).take beginIdx)
          ++ ['\n', '\n'],
          '\n' :: '\n' :: (trimMatches '\n'
            ((replaceCrlf current).drop (beginIdx + endIdx + endMarker.length))
              ++ ['\n']), ?_, ?_, ?_⟩
        · simp [List.append_assoc]
        · exact trimMatches_append_all (dropEdge_trimMatches _ _)
            (dropEnd_trimMatches _ _)
            (fun x hx => by
              rcases List.mem_cons.mp hx with rfl | hx
              · rfl
              · rcases List.mem_singleton.mp hx with rfl
                rfl)
        · rw [trimMatches_cons_self, trimMatches_cons_self]
          exact trimMatches_append_all (dropEdge_trimMatches _ _)
            (dropEnd_trimMatches _ _)
            (fun x hx => by
              rcases List.mem_singleton.mp hx with rfl
              rfl)
  · intro existing block2 hsame
    unfold write_central_catalog_update
    rw [if_pos hsame]

/-- Witness for the amended claim C4 at the concrete host file. -/
theorem upsert_managed_block_spec_witness :
    (trimWs exHostToml ≠ []
      ∧ findSub (replaceCrlf exHostToml) CENTRAL_BEGIN = some 8
      ∧ findSub ((replaceCrlf exHostToml).drop 8) CENTRAL_END = some 35)
    ∧ ((∃ p s, upsert_managed_block exHostToml CENTRAL_BEGIN CENTRAL_END
          ("new = true".toList) =
          p ++ CENTRAL_BEGIN ++ '\n' :: "new = true".toList
            ++ '\n' :: CENTRAL_END ++ s
        ∧ trimMatches '\n' p =
            trimMatches '\n' ((replaceCrlf exHostToml).take 8)
        ∧ trimMatches '\n' s =
            trimMatches '\n' ((replaceCrlf exHostToml).drop
              (8 + 35 + CENTRAL_END.length)))
      ∧ (∀ existing block2,
          upsert_managed_block existing CENTRAL_BEGIN CENTRAL_END block2 = existing →
          write_central_catalog_update existing block2 = none)) :=
  ⟨⟨by decide, by decide, by decide⟩,
    upsert_managed_block_spec exHostToml CENTRAL_BEGIN CENTRAL_END
      ("new = true".toList) 8 35 (by decide) (by decide) (by decide)⟩

end SkillsSync
